import Mathlib

/-!
# Lequel: language identification based on trigrams

A shallow embedding of `Lequel.cpp` (trigram profile construction, L2
normalisation, cosine similarity, language ranking), of `getTextFromString` of
`Text.cpp`, and of the parser and the writer of `CSVData.cpp`.

* A `std::string` is a list of bytes; a `std::wstring` is a list of code units.
* A `TrigramProfile` (`std::map<std::string, float>`) is an association list
  kept in increasing key order, the order in which the C++ map is iterated.
* Frequencies live in an arbitrary linearly ordered field `F`, with the square
  root passed as a parameter, so every definition is executable (for instance
  over `ℚ`); the theorems instantiate `F := ℝ` and `sqrt := Real.sqrt`.
* The counters of `buildTrigramProfile` are `float`s that hold whole numbers;
  `addOneFloat` is their increment, which is exact up to 2^24 and stays there.
* A C++ exception (`std::range_error` of `std::wstring_convert`) is `none`; the
  converter is the one of libstdc++ (GCC 12).
* A file is its content: `readCSV` parses the bytes of the file, `writeCSV`
  yields the bytes written.
-/

namespace Lequel

/-- One `char` of a `std::string`, read as an unsigned byte. -/
abbrev Byte := Fin 256

/-- The type `std::string`: a sequence of bytes. -/
abbrev CppString := List Byte

/-- The type `std::wstring`: a sequence of `wchar_t` code units. -/
abbrev WString := List Nat

/-- Text: list of strings (`Text.h`). -/
abbrev Text := List CppString

/-- TrigramProfile: map of trigram to frequency (`Lequel.h`), as the list of
its entries in iteration order. -/
abbrev TrigramProfile (F : Type) := List (CppString × F)

/-- The struct `LanguageProfile` of `Lequel.h`. -/
structure LanguageProfile (F : Type) where
  languageCode : String
  trigramProfile : TrigramProfile F

/-- LanguageProfiles: `std::list<LanguageProfile>`. -/
abbrev LanguageProfiles (F : Type) := List (LanguageProfile F)

/-- Size of the n-gram (`const size_t TRIGRAM_SIZE = 3`). -/
def TRIGRAM_SIZE : Nat := 3

/-! ## The converter `std::wstring_convert<std::codecvt_utf8_utf16<wchar_t>>`

The converter is the one of the GNU C++ library (libstdc++ 12): `from_bytes`
and `to_bytes` run the conversion of the facet once and raise
`std::range_error` exactly when the facet reports an error. -/

/-- A UTF-8 continuation byte `10xxxxxx`. -/
def isContinuation (b : Byte) : Bool := 0x80 ≤ b.val && b.val < 0xC0

/-- The UTF-16 code units of one code point: itself in the basic plane, a
surrogate pair above it. -/
def utf16Units (c : Nat) : WString :=
  if c < 0x10000 then [c]
  else [0xD800 + (c - 0x10000) / 0x400, 0xDC00 + (c - 0x10000) % 0x400]

/-- What the facet reads at the head of the bytes: a code point with the
number of bytes of its sequence, an incomplete sequence (the input ends before
the sequence does), or an invalid sequence. -/
inductive Utf8Reading where
  | codePoint (c : Nat) (n : Nat)
  | incomplete
  | invalid

/-- Reads the UTF-8 sequence at the head of the bytes. The length of the
sequence is given by its first byte and is compared with what is left before
the other bytes are looked at; a stray continuation byte, an overlong form, a
value above U+10FFFF and a byte that should be a continuation byte and is not
are invalid. An encoded surrogate is read like any other 3-byte sequence. -/
def readUtf8CodePoint : CppString → Utf8Reading
  | [] => .incomplete
  | c1 :: rest =>
    if c1.val < 0x80 then .codePoint c1.val 1
    else if c1.val < 0xC2 then .invalid
    else if c1.val < 0xE0 then
      match rest with
      | c2 :: _ =>
        if isContinuation c2 then .codePoint ((c1.val - 0xC0) * 0x40 + (c2.val - 0x80)) 2
        else .invalid
      | [] => .incomplete
    else if c1.val < 0xF0 then
      match rest with
      | c2 :: c3 :: _ =>
        if isContinuation c2 && isContinuation c3
            && !(c1.val = 0xE0 && c2.val < 0xA0) then
          .codePoint ((c1.val - 0xE0) * 0x1000 + (c2.val - 0x80) * 0x40 + (c3.val - 0x80)) 3
        else .invalid
      | _ => .incomplete
    else if c1.val < 0xF5 then
      match rest with
      | c2 :: c3 :: c4 :: _ =>
        if isContinuation c2 && isContinuation c3 && isContinuation c4
            && !(c1.val = 0xF0 && c2.val < 0x90)
            && !(c1.val = 0xF4 && 0x90 ≤ c2.val) then
          .codePoint ((c1.val - 0xF0) * 0x40000 + (c2.val - 0x80) * 0x1000
            + (c3.val - 0x80) * 0x40 + (c4.val - 0x80)) 4
        else .invalid
      | _ => .incomplete
    else .invalid

/-- The decoding loop of `from_bytes`; `skip` is the number of bytes still to
pass over because they belong to the sequence that was read last (a reading of
`n` bytes is only made when `n` bytes are there, so the input never ends while
bytes remain to be passed over). An invalid sequence is an error; at an
incomplete sequence the conversion stops and what was converted is kept. -/
def decodeFrom : Nat → CppString → Option WString
  | _, [] => some []
  | skip + 1, _ :: rest => decodeFrom skip rest
  | 0, c1 :: rest =>
    match readUtf8CodePoint (c1 :: rest) with
    | .invalid => none
    | .incomplete => some []
    | .codePoint c n => (decodeFrom (n - 1) rest).map (fun w => utf16Units c ++ w)

/-- The conversion `converter.from_bytes`: UTF-8 bytes to UTF-16 code units.
On an invalid sequence the conversion fails, which `wstring_convert` reports by
throwing `std::range_error`; an incomplete sequence at the end of the input is
dropped without an error. -/
def from_bytes (s : CppString) : Option WString := decodeFrom 0 s

/-- The UTF-8 bytes of one code point. -/
def utf8Bytes (c : Nat) : CppString :=
  if c < 0x80 then [Fin.ofNat c]
  else if c < 0x800 then [Fin.ofNat (0xC0 + c / 0x40), Fin.ofNat (0x80 + c % 0x40)]
  else if c < 0x10000 then
    [Fin.ofNat (0xE0 + c / 0x1000), Fin.ofNat (0x80 + c / 0x40 % 0x40),
      Fin.ofNat (0x80 + c % 0x40)]
  else
    [Fin.ofNat (0xF0 + c / 0x40000 % 8), Fin.ofNat (0x80 + c / 0x1000 % 0x40),
      Fin.ofNat (0x80 + c / 0x40 % 0x40), Fin.ofNat (0x80 + c % 0x40)]

/-- The conversion `converter.to_bytes`: UTF-16 code units to UTF-8 bytes. A
high surrogate followed by a low surrogate is one code point; a high surrogate
followed by anything else, a low surrogate that follows no high surrogate and
a value above U+10FFFF make the conversion fail (`std::range_error`); at a
high surrogate that ends the input the conversion stops without an error and
what was converted is kept. -/
def to_bytes : WString → Option CppString
  | [] => some []
  | u :: rest =>
    if 0xD800 ≤ u ∧ u < 0xDC00 then
      match rest with
      | u2 :: rest2 =>
        if 0xDC00 ≤ u2 ∧ u2 < 0xE000 then
          (to_bytes rest2).map
            (fun s => utf8Bytes (0x10000 + (u - 0xD800) * 0x400 + (u2 - 0xDC00)) ++ s)
        else none
      | [] => some []
    else if 0xDC00 ≤ u ∧ u < 0xE000 then none
    else if 0x10FFFF < u then none
    else (to_bytes rest).map (fun s => utf8Bytes u ++ s)

/-! ## `buildTrigramProfile` -/

/-- The statement `x += 1.0f` on a `float` counter. The counters of
`buildTrigramProfile` start at `0.0f` and only ever hold whole numbers, which a
`float` holds exactly up to 2^24 = 16777216: below that the sum is exact, and
16777216 + 1 is not a `float` and rounds back to 16777216 (ties to even), where
the counter stays. -/
def addOneFloat {F : Type} [LinearOrderedField F] (x : F) : F :=
  if x < 16777216 then x + 1 else x

/-- The statement `trigramProfile[trigram] += 1.0f` on the ordered map: an
absent key is first inserted at its place with the value `0`. -/
def incrementAt {F : Type} [LinearOrderedField F] (trigram : CppString) :
    TrigramProfile F → TrigramProfile F
  | [] => [(trigram, addOneFloat 0)]
  | (k, v) :: rest =>
    if trigram = k then (k, addOneFloat v) :: rest
    else if trigram < k then (trigram, addOneFloat 0) :: (k, v) :: rest
    else (k, v) :: incrementAt trigram rest

/-- The first lines of the loop body: a copy of the line without one trailing
carriage return (`if (!line.empty() && line.back() == '\r') line.pop_back()`). -/
def stripCR (lineUtf8 : CppString) : CppString :=
  if lineUtf8 ≠ [] ∧ lineUtf8.getLast? = some 0x0D then lineUtf8.dropLast else lineUtf8

/-- The call `unicodeLine.substr(i, n)`. -/
def substr (unicodeLine : WString) (i n : Nat) : WString := (unicodeLine.drop i).take n

/-- The inner loop of `buildTrigramProfile` at start position `i`. -/
def addTrigramAt {F : Type} [LinearOrderedField F] (unicodeLine : WString)
    (trigramProfile : TrigramProfile F) (i : Nat) : Option (TrigramProfile F) :=
  match to_bytes (substr unicodeLine i TRIGRAM_SIZE) with
  | none => none
  | some trigram => some (incrementAt trigram trigramProfile)

/-- The body of the outer loop of `buildTrigramProfile` for one line. -/
def addLine {F : Type} [LinearOrderedField F] (trigramProfile : TrigramProfile F)
    (lineUtf8 : CppString) : Option (TrigramProfile F) :=
  match from_bytes (stripCR lineUtf8) with
  | none => none
  | some unicodeLine =>
    if unicodeLine.length < TRIGRAM_SIZE then some trigramProfile
    else
      (List.range (unicodeLine.length - TRIGRAM_SIZE + 1)).foldlM
        (addTrigramAt unicodeLine) trigramProfile

/-- Builds a trigram profile from a given text (`Lequel.cpp`, lines 28-62);
`none` when a conversion throws. -/
def buildTrigramProfile {F : Type} [LinearOrderedField F] (text : Text) :
    Option (TrigramProfile F) :=
  text.foldlM addLine []

/-! ## `normalizeTrigramProfile` -/

/-- The first loop of `normalizeTrigramProfile`: the sum of squares of all the
frequencies. -/
def sumSquares {F : Type} [LinearOrderedField F] (trigramProfile : TrigramProfile F) : F :=
  trigramProfile.foldl (fun sumSquares element => sumSquares + element.2 * element.2) 0

/-- Normalizes a trigram profile using the L2 norm (`Lequel.cpp`, lines 69-87);
the profile the C++ code leaves in place is the result. -/
def normalizeTrigramProfile {F : Type} [LinearOrderedField F] (sqrt : F → F)
    (trigramProfile : TrigramProfile F) : TrigramProfile F :=
  if sumSquares trigramProfile = 0 then trigramProfile
  else
    let norm := sqrt (sumSquares trigramProfile)
    trigramProfile.map (fun element => (element.1, element.2 / norm))

/-! ## `getCosineSimilarity` -/

/-- Calculates the cosine similarity between two trigram profiles by the nested
loop over all pairs of entries (`Lequel.cpp`, lines 96-110). -/
def getCosineSimilarity {F : Type} [LinearOrderedField F]
    (textProfile languageProfile : TrigramProfile F) : F :=
  textProfile.foldl
    (fun value text_trigram =>
      languageProfile.foldl
        (fun value lang_trigram =>
          if text_trigram.1 = lang_trigram.1 then value + text_trigram.2 * lang_trigram.2
          else value)
        value)
    0

/-! ## `identifyLanguage` -/

/-- The body of the ranking loop: the state is `(previous_cosine, lang)`. -/
def rankStep {F : Type} [LinearOrderedField F] (TextProfile : TrigramProfile F)
    (state : F × String) (lenguaje : LanguageProfile F) : F × String :=
  let cosine_simmilarity := getCosineSimilarity TextProfile lenguaje.trigramProfile
  if cosine_simmilarity > state.1 then (cosine_simmilarity, lenguaje.languageCode)
  else state

/-- Identifies the language of a text (`Lequel.cpp`, lines 119-140); `none`
when building the text profile throws. -/
def identifyLanguage {F : Type} [LinearOrderedField F] (sqrt : F → F) (text : Text)
    (languages : LanguageProfiles F) : Option String :=
  match buildTrigramProfile text with
  | none => none
  | some built =>
    let TextProfile := normalizeTrigramProfile sqrt built
    some (languages.foldl (rankStep TextProfile) (-1, "---")).2

/-! ## Observations on profiles -/

/-- The keys of a profile, in iteration order. -/
def profileKeys {F : Type} (p : TrigramProfile F) : List CppString := p.map Prod.fst

/-- The invariant of `std::map`: the keys are strictly increasing, hence unique. -/
def IsMap {F : Type} (p : TrigramProfile F) : Prop := (profileKeys p).Pairwise (· < ·)

/-- The frequency stored under a key, an absent key counting as `0`. -/
def frequency {F : Type} [LinearOrderedField F] : TrigramProfile F → CppString → F
  | [], _ => 0
  | (k, v) :: rest, t => if t = k then v else frequency rest t

/-- The similarity as the specification words it: iterate one profile's
entries and look each key up in the other profile. -/
def cosineByLookup {F : Type} [LinearOrderedField F] (a b : TrigramProfile F) : F :=
  a.foldl (fun value e => if e.1 ∈ profileKeys b then value + e.2 * frequency b e.1 else value) 0

/-- The number of start positions of one line whose window is the trigram `t`:
the line is taken without one trailing carriage return and decoded; a line with
fewer than 3 characters has no window; otherwise the positions `i` with
`0 ≤ i ≤ length - 3` whose 3-character window re-encodes to `t` are counted. -/
def lineWindowCount (t : CppString) (lineUtf8 : CppString) : Nat :=
  match from_bytes (stripCR lineUtf8) with
  | none => 0
  | some w =>
    if w.length < 3 then 0
    else (List.range (w.length - 3 + 1)).countP (fun i => decide (to_bytes (substr w i 3) = some t))

/-- The number of pairs `(line, i)` of a text whose window is the trigram `t`. -/
def windowCount (t : CppString) (text : Text) : Nat :=
  (text.map (lineWindowCount t)).sum

/-- Every conversion that `buildTrigramProfile` performs on the text succeeds:
each line, without its trailing carriage return, decodes, and each of its
3-unit windows re-encodes. -/
def Convertible (text : Text) : Prop :=
  ∀ line ∈ text, ∃ w, from_bytes (stripCR line) = some w ∧
    ∀ i, i + TRIGRAM_SIZE ≤ w.length → (to_bytes (substr w i TRIGRAM_SIZE)).isSome = true

/-- The profile `p` is a map whose counters have counted `c`: a counter holds
its count up to 2^24 = 16777216, where it stays, and a key is present exactly
when its count is positive. -/
def Represents (p : TrigramProfile ℝ) (c : CppString → Nat) : Prop :=
  IsMap p ∧ ∀ t, frequency p t = ((min (c t) 16777216 : Nat) : ℝ)
    ∧ (t ∈ profileKeys p ↔ 0 < c t)

/-- A Unicode scalar value of the Basic Multilingual Plane: a code point below
`0x10000` that is not a surrogate. -/
def IsBmpScalar (c : Nat) : Prop := c < 0xD800 ∨ (0xE000 ≤ c ∧ c < 0x10000)

/-- The UTF-8 encoding of a sequence of code points. -/
def encodeUtf8 : List Nat → CppString
  | [] => []
  | c :: cs => utf8Bytes c ++ encodeUtf8 cs

instance (c : Nat) : Decidable (IsBmpScalar c) := by
  unfold IsBmpScalar
  infer_instance

/-- The sum of all the frequencies of a profile. -/
def frequencySum {F : Type} [LinearOrderedField F] (p : TrigramProfile F) : F :=
  (p.map Prod.snd).sum

/-- The number of start positions `i` (`0 ≤ i ≤ n - 3`) of a line of `n ≥ 3`
code points whose window of 3 code points is the trigram with the key `t`; a
line of fewer than 3 code points has none. -/
def codePointWindowCount (t : CppString) (cps : List Nat) : Nat :=
  if cps.length < 3 then 0
  else (List.range (cps.length - 3 + 1)).countP
    (fun i => decide (encodeUtf8 ((cps.drop i).take 3) = t))

/-- The number of pairs `(line, i)` of lines of code points whose window of 3
code points is the trigram with the key `t`. -/
def textWindowCount (t : CppString) (lines : List (List Nat)) : Nat :=
  (lines.map (codePointWindowCount t)).sum

/-- The text is made of the lines `lines` of code points of the Basic
Multilingual Plane (scalar values, so no surrogate): each line of the text,
once one trailing carriage return is removed, is the UTF-8 encoding of the line
of code points at the same place. -/
def EncodesLines (text : Text) (lines : List (List Nat)) : Prop :=
  List.Forall₂ (fun line cps => (∀ c ∈ cps, IsBmpScalar c) ∧ stripCR line = encodeUtf8 cps)
    text lines

/-! ## `Text.cpp`: `getTextFromString` -/

/-- The loop of `getTextFromString`, read one character at a time: `cur` holds
the characters from `prevPosition` up to the character being looked at. At a
line feed (`position`) the line is pushed, without its last character when
`position > prevPosition` and `s[position - 1] == '\r'`; at the end of the
string the last substring `s.substr(prevPosition)` is pushed. -/
def getTextScan : CppString → CppString → Text
  | [], cur => [cur]
  | c :: rest, cur =>
    if c = 0x0A then
      (if cur ≠ [] ∧ cur.getLast? = some 0x0D then cur.dropLast else cur)
        :: getTextScan rest []
    else getTextScan rest (cur ++ [c])

/-- Converts a line-feed-separated string to a list of strings (`Text.cpp`,
lines 21-41): the text left in `text` after `text.clear()` and the loop; the
function always returns `true`. -/
def getTextFromString (s : CppString) : Text := getTextScan s []

/-- The string in which every carriage return directly followed by a line feed
is dropped, that is, every pair carriage return, line feed is replaced by a
line feed. -/
def replaceCRLF : CppString → CppString
  | [] => []
  | c :: rest =>
    if c = 0x0D ∧ rest.head? = some 0x0A then replaceCRLF rest else c :: replaceCRLF rest

/-- The lines joined with single line feeds. -/
def joinLines : Text → CppString
  | [] => []
  | [line] => line
  | line :: next :: lines => line ++ 0x0A :: joinLines (next :: lines)

/-! ## `CSVData.cpp` -/

/-- CSVData: vector of vector of fields (`CSVData.h`). -/
abbrev CSVData := List (List CppString)

/-- The local variables of `readCSV` during the parsing loop, with the table
`data` being filled. -/
structure CSVState where
  inQuotes : Bool
  lastQuote : Bool
  field : CppString
  fields : List CppString
  data : CSVData

/-- The end of a record in `readCSV` (the branch for a line break, and the
statements after the loop): a non-empty field is pushed to the fields, and the
fields, when there are any, are pushed to the table. -/
def endRecord (field : CppString) (fields : List CppString) (data : CSVData) : CSVData :=
  let fields := if field ≠ [] then fields ++ [field] else fields
  if fields ≠ [] then data ++ [fields] else data

/-- The body of the parsing loop of `readCSV` for the character `c`
(`CSVData.cpp`, lines 44-88). -/
def readStep (st : CSVState) (c : Byte) : CSVState :=
  let inQuotes := if st.lastQuote = true ∧ c ≠ 0x22 then !st.inQuotes else st.inQuotes
  if c = 0x22 then
    if st.lastQuote = true then
      { st with inQuotes := inQuotes, field := st.field ++ [c], lastQuote := false }
    else
      { st with inQuotes := inQuotes, lastQuote := true }
  else if c = 0x2C then
    if inQuotes = true then
      { st with inQuotes := inQuotes, field := st.field ++ [c], lastQuote := false }
    else
      { st with inQuotes := inQuotes, fields := st.fields ++ [st.field], field := [],
                lastQuote := false }
  else if c = 0x0A ∨ c = 0x0D then
    { inQuotes := false, lastQuote := false, field := [], fields := [],
      data := endRecord st.field st.fields st.data }
  else
    { st with inQuotes := inQuotes, field := st.field ++ [c], lastQuote := false }

/-- The parser of `readCSV` (`CSVData.cpp`, lines 36-94) on the bytes of the
file: the table `data` after the loop and the final record. -/
def parseCSV (fileData : CppString) (data : CSVData) : CSVData :=
  let st := fileData.foldl readStep
    { inQuotes := false, lastQuote := false, field := [], fields := [], data := data }
  endRecord st.field st.fields st.data

/-- Reads a CSV file as a vector of vectors of fields (`CSVData.cpp`, lines
23-99); the file is its content, `none` when it cannot be opened. The result is
the returned flag and the table. -/
def readCSV (file : Option CppString) (data : CSVData) : Bool × CSVData :=
  match file with
  | none => (false, data)
  | some fileData => (true, parseCSV fileData data)

/-- The inner `while` loop of `writeCSV`: every double quote of the field is
replaced by two double quotes. -/
def doubleQuotes : CppString → CppString
  | [] => []
  | c :: rest => if c = 0x22 then 0x22 :: 0x22 :: doubleQuotes rest else c :: doubleQuotes rest

/-- The loop of `writeCSV` over the fields of one record; the state is
`(line, isFirstField)`. -/
def writeField (state : CppString × Bool) (field : CppString) : CppString × Bool :=
  let line := if state.2 = false then state.1 ++ [0x2C] else state.1
  (line ++ ([0x22] ++ doubleQuotes field ++ [0x22]), false)

/-- The line that `writeCSV` writes for one record. -/
def writeRecord (fields : List CppString) : CppString :=
  (fields.foldl writeField ([], true)).1 ++ [0x0A]

/-- Writes a vector of vectors of fields to a CSV file (`CSVData.cpp`, lines
108-147): the bytes written to the stream when every write succeeds. -/
def writeCSV (data : CSVData) : CppString :=
  data.foldl (fun file fields => file ++ writeRecord fields) []

/-- The field as the parser reads it back from what `writeCSV` wrote: a field
made only of double quotes (the empty field included) comes back with one more
double quote, every other field comes back unchanged. -/
def readBack (field : CppString) : CppString :=
  if field.all (fun c => decide (c = 0x22)) = true then field ++ [0x22] else field
/-- The state in which the parser is after a written field: the field read so
far is `g`, not empty, and a comma or a line break ends it. -/
def FieldRead (st : CSVState) (g : CppString) (fields : List CppString) (data : CSVData) :
    Prop :=
  g ≠ [] ∧ (st = ⟨false, false, g, fields, data⟩ ∨ st = ⟨true, true, g, fields, data⟩)

/-! # Theorems -/

/-! ## Lemmas on folds and maps -/

theorem foldl_add_eq_sum {α : Type} (f : α → ℝ) (l : List α) (init : ℝ) :
    l.foldl (fun acc e => acc + f e) init = init + (l.map f).sum := by
  induction l generalizing init with
  | nil => simp
  | cons x xs ih => simp [ih, add_assoc]

theorem isMap_tail {F : Type} {e : CppString × F} {p : TrigramProfile F}
    (h : IsMap (e :: p)) : IsMap p := by
  unfold IsMap profileKeys at *
  exact (List.pairwise_cons.mp h).2

theorem isMap_head_not_mem {F : Type} {e : CppString × F} {p : TrigramProfile F}
    (h : IsMap (e :: p)) : e.1 ∉ profileKeys p := by
  unfold IsMap profileKeys at *
  intro hm
  exact lt_irrefl _ ((List.pairwise_cons.mp h).1 _ hm)

theorem isMap_nodup {F : Type} {p : TrigramProfile F} (h : IsMap p) :
    (profileKeys p).Nodup :=
  List.Pairwise.imp (fun hab => ne_of_lt hab) h

theorem frequency_of_not_mem (p : TrigramProfile ℝ) (t : CppString)
    (h : t ∉ profileKeys p) : frequency p t = 0 := by
  induction p with
  | nil => rfl
  | cons e rest ih =>
    obtain ⟨k, v⟩ := e
    simp only [profileKeys, List.map_cons, List.mem_cons, not_or] at h
    simp only [frequency, if_neg h.1]
    exact ih h.2

theorem frequency_of_mem (p : TrigramProfile ℝ) (hp : IsMap p) (e : CppString × ℝ)
    (he : e ∈ p) : frequency p e.1 = e.2 := by
  induction p with
  | nil => cases he
  | cons x rest ih =>
    obtain ⟨k, v⟩ := x
    rcases List.mem_cons.mp he with h | h
    · subst h; simp [frequency]
    · have hne : e.1 ≠ k := by
        intro hk
        apply isMap_head_not_mem hp
        show k ∈ profileKeys rest
        rw [← hk]
        exact List.mem_map_of_mem Prod.fst h
      simp only [frequency, if_neg hne]
      exact ih (isMap_tail hp) h

/-- The inner loop of `getCosineSimilarity` adds the product with the matching
entry of the language profile, if there is one. -/
theorem inner_loop_eq (t : CppString × ℝ) (b : TrigramProfile ℝ) (hb : IsMap b) (value : ℝ) :
    b.foldl (fun value l => if t.1 = l.1 then value + t.2 * l.2 else value) value
      = value + t.2 * frequency b t.1 := by
  induction b generalizing value with
  | nil => simp [frequency]
  | cons x rest ih =>
    obtain ⟨k, v⟩ := x
    rw [List.foldl_cons, ih (isMap_tail hb)]
    by_cases h : t.1 = k
    · have hnot : t.1 ∉ profileKeys rest := h ▸ isMap_head_not_mem hb
      simp [frequency, h, frequency_of_not_mem rest k (h ▸ hnot)]
    · simp [frequency, h]

theorem getCosineSimilarity_eq_sum (a b : TrigramProfile ℝ) (hb : IsMap b) :
    getCosineSimilarity a b = (a.map (fun e => e.2 * frequency b e.1)).sum := by
  unfold getCosineSimilarity
  have h : (fun (value : ℝ) (t : CppString × ℝ) =>
      b.foldl (fun value l => if t.1 = l.1 then value + t.2 * l.2 else value) value)
      = fun value t => value + t.2 * frequency b t.1 := by
    funext value t
    exact inner_loop_eq t b hb value
  rw [h, foldl_add_eq_sum]
  simp

theorem cosineByLookup_eq_sum (a b : TrigramProfile ℝ) :
    cosineByLookup a b = (a.map (fun e => e.2 * frequency b e.1)).sum := by
  unfold cosineByLookup
  have h : (fun (value : ℝ) (e : CppString × ℝ) =>
      if e.1 ∈ profileKeys b then value + e.2 * frequency b e.1 else value)
      = fun value e => value + e.2 * frequency b e.1 := by
    funext value e
    by_cases hm : e.1 ∈ profileKeys b
    · simp [hm]
    · simp [hm, frequency_of_not_mem b e.1 hm]
  rw [h, foldl_add_eq_sum]
  simp

/-- A sum over the entries of a map is a sum over its key set. -/
theorem sum_entries_eq_sum_keys (p : TrigramProfile ℝ) (hp : IsMap p)
    (g : CppString → ℝ → ℝ) :
    (p.map (fun e => g e.1 e.2)).sum
      = ∑ t ∈ (profileKeys p).toFinset, g t (frequency p t) := by
  rw [List.sum_toFinset _ (isMap_nodup hp)]
  unfold profileKeys
  rw [List.map_map]
  congr 1
  apply List.map_congr_left
  intro e he
  simp [frequency_of_mem p hp e he]

theorem sumSquares_eq_sum (p : TrigramProfile ℝ) :
    sumSquares p = (p.map (fun e => e.2 * e.2)).sum := by
  unfold sumSquares
  rw [foldl_add_eq_sum]
  simp

/-! ## Similarity: the nested loop against the lookup strategy -/

theorem getCosineSimilarity_eq_finset (a b : TrigramProfile ℝ) (ha : IsMap a) (hb : IsMap b) :
    getCosineSimilarity a b
      = ∑ t ∈ (profileKeys a).toFinset ∩ (profileKeys b).toFinset,
          frequency a t * frequency b t := by
  rw [getCosineSimilarity_eq_sum a b hb,
    sum_entries_eq_sum_keys a ha (fun t v => v * frequency b t)]
  symm
  apply Finset.sum_subset Finset.inter_subset_left
  intro t _ htb
  have hnb : t ∉ profileKeys b := by
    intro hm
    apply htb
    simp only [Finset.mem_inter, List.mem_toFinset]
    exact ⟨by simpa using ‹t ∈ (profileKeys a).toFinset›, hm⟩
  simp [frequency_of_not_mem b t hnb]

/-- C2: on maps, the nested loop of `getCosineSimilarity` returns the sum of
`a[t] * b[t]` over the trigrams `t` that are keys of both profiles, which is
also what iterating one profile and looking each key up in the other returns. -/
theorem getCosineSimilarity_refines_lookup (a b : TrigramProfile ℝ)
    (ha : IsMap a) (hb : IsMap b) :
    getCosineSimilarity a b
        = ∑ t ∈ (profileKeys a).toFinset ∩ (profileKeys b).toFinset,
            frequency a t * frequency b t
      ∧ getCosineSimilarity a b = cosineByLookup a b :=
  ⟨getCosineSimilarity_eq_finset a b ha hb,
    by rw [getCosineSimilarity_eq_sum a b hb, cosineByLookup_eq_sum]⟩

theorem getCosineSimilarity_refines_lookup_witness :
    getCosineSimilarity (F := ℝ) [([97, 98, 99], 3), ([98, 99, 100], 4)]
        [([98, 99, 100], 5), ([99, 100, 101], 7)]
        = ∑ t ∈ (profileKeys ([([97, 98, 99], 3), ([98, 99, 100], 4)] :
              TrigramProfile ℝ)).toFinset
            ∩ (profileKeys ([([98, 99, 100], 5), ([99, 100, 101], 7)] :
              TrigramProfile ℝ)).toFinset,
            frequency ([([97, 98, 99], 3), ([98, 99, 100], 4)] : TrigramProfile ℝ) t
              * frequency ([([98, 99, 100], 5), ([99, 100, 101], 7)] : TrigramProfile ℝ) t
      ∧ getCosineSimilarity (F := ℝ) [([97, 98, 99], 3), ([98, 99, 100], 4)]
        [([98, 99, 100], 5), ([99, 100, 101], 7)]
        = cosineByLookup [([97, 98, 99], 3), ([98, 99, 100], 4)]
          [([98, 99, 100], 5), ([99, 100, 101], 7)] :=
  getCosineSimilarity_refines_lookup [([97, 98, 99], 3), ([98, 99, 100], 4)]
    [([98, 99, 100], 5), ([99, 100, 101], 7)]
    (by unfold IsMap profileKeys; decide) (by unfold IsMap profileKeys; decide)

/-! ## Normalisation -/

theorem sumSquares_nonneg (p : TrigramProfile ℝ) : 0 ≤ sumSquares p := by
  rw [sumSquares_eq_sum]
  apply List.sum_nonneg
  intro x hx
  obtain ⟨e, _, rfl⟩ := List.mem_map.mp hx
  exact mul_self_nonneg e.2

theorem sumSquares_eq_zero_iff (p : TrigramProfile ℝ) :
    sumSquares p = 0 ↔ ∀ e ∈ p, e.2 = 0 := by
  rw [sumSquares_eq_sum]
  induction p with
  | nil => simp
  | cons x rest ih =>
    have h1 : 0 ≤ x.2 * x.2 := mul_self_nonneg x.2
    have h2 : 0 ≤ (rest.map (fun e => e.2 * e.2)).sum := by
      rw [← sumSquares_eq_sum]; exact sumSquares_nonneg rest
    simp only [List.map_cons, List.sum_cons, List.mem_cons, forall_eq_or_imp]
    constructor
    · intro h
      have hx : x.2 * x.2 = 0 := by linarith
      have hr : (rest.map (fun e => e.2 * e.2)).sum = 0 := by linarith
      exact ⟨mul_self_eq_zero.mp hx, ih.mp hr⟩
    · rintro ⟨hx, hr⟩
      rw [ih.mpr hr, hx]; simp

theorem sumSquares_map_div (p : TrigramProfile ℝ) (c : ℝ) :
    sumSquares (p.map (fun e => (e.1, e.2 / c))) = sumSquares p / (c * c) := by
  simp only [sumSquares_eq_sum, List.map_map]
  induction p with
  | nil => simp
  | cons x rest ih =>
    simp only [List.map_cons, List.sum_cons, Function.comp_apply] at ih ⊢
    rw [ih]; ring

theorem sumSquares_map_mul (p : TrigramProfile ℝ) (k : ℝ) :
    sumSquares (p.map (fun e => (e.1, e.2 * k))) = sumSquares p * (k * k) := by
  simp only [sumSquares_eq_sum, List.map_map]
  induction p with
  | nil => simp
  | cons x rest ih =>
    simp only [List.map_cons, List.sum_cons, Function.comp_apply] at ih ⊢
    rw [ih]; ring

theorem profileKeys_normalizeTrigramProfile (p : TrigramProfile ℝ) :
    profileKeys (normalizeTrigramProfile Real.sqrt p) = profileKeys p := by
  unfold normalizeTrigramProfile profileKeys
  split
  · rfl
  · simp [List.map_map, Function.comp_def]

/-- C4: `normalizeTrigramProfile` keeps the keys; a profile whose sum of squares
is `0` (exactly the empty and the all-zero profiles) is left unchanged;
otherwise every frequency `f` becomes `f / sqrt (sum of squares)` and the sum of
squares of the result is `1`. -/
theorem normalizeTrigramProfile_spec (p : TrigramProfile ℝ) :
    profileKeys (normalizeTrigramProfile Real.sqrt p) = profileKeys p
    ∧ (sumSquares p = 0 ↔ ∀ e ∈ p, e.2 = 0)
    ∧ (sumSquares p = 0 → normalizeTrigramProfile Real.sqrt p = p)
    ∧ (sumSquares p ≠ 0 →
        normalizeTrigramProfile Real.sqrt p
            = p.map (fun e => (e.1, e.2 / Real.sqrt (sumSquares p)))
          ∧ sumSquares (normalizeTrigramProfile Real.sqrt p) = 1) := by
  refine ⟨profileKeys_normalizeTrigramProfile p, sumSquares_eq_zero_iff p, ?_, ?_⟩
  · intro h
    simp [normalizeTrigramProfile, h]
  · intro h
    have hn : normalizeTrigramProfile Real.sqrt p
        = p.map (fun e => (e.1, e.2 / Real.sqrt (sumSquares p))) := by
      simp [normalizeTrigramProfile, h]
    refine ⟨hn, ?_⟩
    rw [hn, sumSquares_map_div, Real.mul_self_sqrt (sumSquares_nonneg p)]
    exact div_self h

/-- C10: normalising a profile whose frequencies were all multiplied by a
positive scalar `k` gives the same profile as normalising the original. -/
theorem normalizeTrigramProfile_scale_invariant (P : TrigramProfile ℝ) (k : ℝ) (hk : 0 < k) :
    normalizeTrigramProfile Real.sqrt (P.map (fun e => (e.1, e.2 * k)))
      = normalizeTrigramProfile Real.sqrt P := by
  have hss := sumSquares_map_mul P k
  have hkk : k * k ≠ 0 := ne_of_gt (mul_pos hk hk)
  by_cases h0 : sumSquares P = 0
  · have hz := (sumSquares_eq_zero_iff P).mp h0
    have hmap : P.map (fun e => (e.1, e.2 * k)) = P := by
      conv_rhs => rw [← List.map_id P]
      apply List.map_congr_left
      intro e he
      rw [hz e he]
      ext <;> simp [hz e he]
    rw [hmap]
  · have h1 : sumSquares (P.map (fun e => (e.1, e.2 * k))) ≠ 0 := by
      rw [hss]; exact mul_ne_zero h0 hkk
    have hsqrt : Real.sqrt (sumSquares P * (k * k)) = Real.sqrt (sumSquares P) * k := by
      rw [Real.sqrt_mul (sumSquares_nonneg P), Real.sqrt_mul_self hk.le]
    have hpos : Real.sqrt (sumSquares P) ≠ 0 :=
      ne_of_gt (Real.sqrt_pos.mpr (lt_of_le_of_ne (sumSquares_nonneg P) (Ne.symm h0)))
    have h1' : sumSquares P * (k * k) ≠ 0 := mul_ne_zero h0 hkk
    simp only [normalizeTrigramProfile, if_neg h0, List.map_map, hss, hsqrt, if_neg h1']
    apply List.map_congr_left
    intro e _
    simp only [Function.comp_apply, Prod.mk.injEq, true_and]
    field_simp
    ring

theorem normalizeTrigramProfile_scale_invariant_witness :
    normalizeTrigramProfile Real.sqrt
        (([([97, 98, 99], 3), ([98, 99, 100], 4)] : TrigramProfile ℝ).map
          (fun e => (e.1, e.2 * 2)))
      = normalizeTrigramProfile Real.sqrt [([97, 98, 99], 3), ([98, 99, 100], 4)] :=
  normalizeTrigramProfile_scale_invariant [([97, 98, 99], 3), ([98, 99, 100], 4)] 2
    (by norm_num)

/-! ## Bounds on the similarity -/

theorem frequency_nonneg (p : TrigramProfile ℝ) (hp : ∀ e ∈ p, 0 ≤ e.2) (t : CppString) :
    0 ≤ frequency p t := by
  induction p with
  | nil => exact le_refl 0
  | cons x rest ih =>
    obtain ⟨k, v⟩ := x
    simp only [frequency]
    split
    · exact hp (k, v) (List.mem_cons_self _ _)
    · exact ih (fun e he => hp e (List.mem_cons_of_mem _ he))

theorem sumSquares_eq_finset (p : TrigramProfile ℝ) (hp : IsMap p) :
    sumSquares p = ∑ t ∈ (profileKeys p).toFinset, frequency p t * frequency p t := by
  rw [sumSquares_eq_sum]
  exact sum_entries_eq_sum_keys p hp (fun _ v => v * v)

theorem sumSquares_le_one_of_normalized (p : TrigramProfile ℝ)
    (h : sumSquares p = 1 ∨ p = []) : sumSquares p ≤ 1 := by
  rcases h with h | h
  · exact le_of_eq h
  · subst h; simp [sumSquares]

theorem getCosineSimilarity_nonneg (a b : TrigramProfile ℝ) (hb : IsMap b)
    (ha0 : ∀ e ∈ a, 0 ≤ e.2) (hb0 : ∀ e ∈ b, 0 ≤ e.2) :
    0 ≤ getCosineSimilarity a b := by
  rw [getCosineSimilarity_eq_sum a b hb]
  apply List.sum_nonneg
  intro x hx
  obtain ⟨e, he, rfl⟩ := List.mem_map.mp hx
  exact mul_nonneg (ha0 e he) (frequency_nonneg b hb0 e.1)

theorem getCosineSimilarity_le_half_sumSquares (a b : TrigramProfile ℝ)
    (ha : IsMap a) (hb : IsMap b) :
    getCosineSimilarity a b ≤ (sumSquares a + sumSquares b) / 2 := by
  rw [getCosineSimilarity_eq_finset a b ha hb, sumSquares_eq_finset a ha,
    sumSquares_eq_finset b hb]
  have h1 : ∑ t ∈ (profileKeys a).toFinset ∩ (profileKeys b).toFinset,
        frequency a t * frequency b t
      ≤ ∑ t ∈ (profileKeys a).toFinset ∩ (profileKeys b).toFinset,
        (frequency a t * frequency a t + frequency b t * frequency b t) / 2 := by
    apply Finset.sum_le_sum
    intro t _
    nlinarith [sq_nonneg (frequency a t - frequency b t)]
  have h2 : ∑ t ∈ (profileKeys a).toFinset ∩ (profileKeys b).toFinset,
        frequency a t * frequency a t
      ≤ ∑ t ∈ (profileKeys a).toFinset, frequency a t * frequency a t :=
    Finset.sum_le_sum_of_subset_of_nonneg Finset.inter_subset_left
      (fun t _ _ => mul_self_nonneg _)
  have h3 : ∑ t ∈ (profileKeys a).toFinset ∩ (profileKeys b).toFinset,
        frequency b t * frequency b t
      ≤ ∑ t ∈ (profileKeys b).toFinset, frequency b t * frequency b t :=
    Finset.sum_le_sum_of_subset_of_nonneg Finset.inter_subset_right
      (fun t _ _ => mul_self_nonneg _)
  have h4 : ∑ t ∈ (profileKeys a).toFinset ∩ (profileKeys b).toFinset,
        (frequency a t * frequency a t + frequency b t * frequency b t) / 2
      = (∑ t ∈ (profileKeys a).toFinset ∩ (profileKeys b).toFinset,
          frequency a t * frequency a t
        + ∑ t ∈ (profileKeys a).toFinset ∩ (profileKeys b).toFinset,
          frequency b t * frequency b t) / 2 := by
    rw [← Finset.sum_add_distrib, Finset.sum_div]
  linarith

/-- C6: for two maps with non-negative frequencies, each normalised (sum of
squares `1`) or empty, `getCosineSimilarity` returns a value in `[0, 1]`. -/
theorem getCosineSimilarity_mem_unit_interval (a b : TrigramProfile ℝ)
    (ha : IsMap a) (hb : IsMap b)
    (ha0 : ∀ e ∈ a, 0 ≤ e.2) (hb0 : ∀ e ∈ b, 0 ≤ e.2)
    (han : sumSquares a = 1 ∨ a = []) (hbn : sumSquares b = 1 ∨ b = []) :
    0 ≤ getCosineSimilarity a b ∧ getCosineSimilarity a b ≤ 1 := by
  refine ⟨getCosineSimilarity_nonneg a b hb ha0 hb0, ?_⟩
  have h := getCosineSimilarity_le_half_sumSquares a b ha hb
  have h1 := sumSquares_le_one_of_normalized a han
  have h2 := sumSquares_le_one_of_normalized b hbn
  linarith

theorem getCosineSimilarity_mem_unit_interval_witness :
    0 ≤ getCosineSimilarity (F := ℝ) [([97, 98, 99], 3 / 5), ([98, 99, 100], 4 / 5)]
        [([98, 99, 100], 1)]
      ∧ getCosineSimilarity (F := ℝ) [([97, 98, 99], 3 / 5), ([98, 99, 100], 4 / 5)]
        [([98, 99, 100], 1)] ≤ 1 :=
  getCosineSimilarity_mem_unit_interval [([97, 98, 99], 3 / 5), ([98, 99, 100], 4 / 5)]
    [([98, 99, 100], 1)]
    (by unfold IsMap profileKeys; decide) (by unfold IsMap profileKeys; decide)
    (by intro e he; simp at he; rcases he with rfl | rfl <;> norm_num)
    (by intro e he; simp at he; subst he; norm_num)
    (Or.inl (by norm_num [sumSquares])) (Or.inl (by norm_num [sumSquares]))

/-! ## The ranking loop -/

theorem inner_loop_of_no_match (t : CppString × ℝ) (b : TrigramProfile ℝ)
    (h : t.1 ∉ profileKeys b) (value : ℝ) :
    b.foldl (fun value l => if t.1 = l.1 then value + t.2 * l.2 else value) value = value := by
  induction b generalizing value with
  | nil => rfl
  | cons x rest ih =>
    have hx : ¬ t.1 = x.1 := fun e => h (by simp [profileKeys, e])
    have hr : t.1 ∉ profileKeys rest := fun hm => h (by
      simp only [profileKeys, List.map_cons, List.mem_cons]
      exact Or.inr hm)
    rw [List.foldl_cons, if_neg hx]
    exact ih hr value

theorem outer_loop_of_disjoint (a b : TrigramProfile ℝ)
    (h : ∀ t ∈ profileKeys a, t ∉ profileKeys b) (value : ℝ) :
    a.foldl (fun value text_trigram => b.foldl
      (fun value lang_trigram =>
        if text_trigram.1 = lang_trigram.1 then value + text_trigram.2 * lang_trigram.2
        else value) value) value = value := by
  induction a generalizing value with
  | nil => rfl
  | cons x rest ih =>
    rw [List.foldl_cons, inner_loop_of_no_match x b (h x.1 (by simp [profileKeys]))]
    exact ih (fun t ht => h t (by
      simp only [profileKeys, List.map_cons, List.mem_cons]
      exact Or.inr ht)) value

theorem getCosineSimilarity_of_disjoint (a b : TrigramProfile ℝ)
    (h : ∀ t ∈ profileKeys a, t ∉ profileKeys b) : getCosineSimilarity a b = 0 :=
  outer_loop_of_disjoint a b h 0

theorem inner_loop_mono (t : CppString × ℝ) (b : TrigramProfile ℝ) (ht : 0 ≤ t.2)
    (hb : ∀ e ∈ b, 0 ≤ e.2) (value : ℝ) :
    value ≤ b.foldl (fun value l => if t.1 = l.1 then value + t.2 * l.2 else value) value := by
  induction b generalizing value with
  | nil => exact le_refl _
  | cons x rest ih =>
    rw [List.foldl_cons]
    have hx := hb x (List.mem_cons_self _ _)
    have hrest := ih (fun e he => hb e (List.mem_cons_of_mem _ he))
    by_cases h : t.1 = x.1
    · rw [if_pos h]
      have := hrest (value + t.2 * x.2)
      have := mul_nonneg ht hx
      linarith
    · rw [if_neg h]; exact hrest value

theorem outer_loop_mono (a b : TrigramProfile ℝ) (ha : ∀ e ∈ a, 0 ≤ e.2)
    (hb : ∀ e ∈ b, 0 ≤ e.2) (value : ℝ) :
    value ≤ a.foldl (fun value text_trigram => b.foldl
      (fun value lang_trigram =>
        if text_trigram.1 = lang_trigram.1 then value + text_trigram.2 * lang_trigram.2
        else value) value) value := by
  induction a generalizing value with
  | nil => exact le_refl _
  | cons x rest ih =>
    rw [List.foldl_cons]
    exact le_trans (inner_loop_mono x b (ha x (List.mem_cons_self _ _)) hb value)
      (ih (fun e he => ha e (List.mem_cons_of_mem _ he)) _)

/-- With non-negative frequencies the nested loop never goes below `0`. -/
theorem getCosineSimilarity_nonneg_of_nonneg (a b : TrigramProfile ℝ)
    (ha : ∀ e ∈ a, 0 ≤ e.2) (hb : ∀ e ∈ b, 0 ≤ e.2) : 0 ≤ getCosineSimilarity a b :=
  outer_loop_mono a b ha hb 0

/-- The ranking loop from a state `(best, code)`: either no language improves
strictly on `best` and the state is unchanged, or the loop ends on the first
language whose score is the maximum, a score above `best`. -/
theorem foldl_rankStep (T : TrigramProfile ℝ) (languages : LanguageProfiles ℝ)
    (best : ℝ) (code : String) :
    (languages.foldl (rankStep T) (best, code) = (best, code)
        ∧ ∀ l ∈ languages, getCosineSimilarity T l.trigramProfile ≤ best)
      ∨ ∃ before winner after, languages = before ++ winner :: after
        ∧ languages.foldl (rankStep T) (best, code)
            = (getCosineSimilarity T winner.trigramProfile, winner.languageCode)
        ∧ best < getCosineSimilarity T winner.trigramProfile
        ∧ (∀ l ∈ before, getCosineSimilarity T l.trigramProfile
            < getCosineSimilarity T winner.trigramProfile)
        ∧ (∀ l ∈ after, getCosineSimilarity T l.trigramProfile
            ≤ getCosineSimilarity T winner.trigramProfile) := by
  induction languages generalizing best code with
  | nil => exact Or.inl ⟨rfl, fun l hl => absurd hl (List.not_mem_nil l)⟩
  | cons x rest ih =>
    rw [List.foldl_cons]
    by_cases hx : getCosineSimilarity T x.trigramProfile > best
    · have hstep : rankStep T (best, code) x
          = (getCosineSimilarity T x.trigramProfile, x.languageCode) := by
        simp only [rankStep, if_pos hx]
      rw [hstep]
      rcases ih (getCosineSimilarity T x.trigramProfile) x.languageCode with
        ⟨hfold, hall⟩ | ⟨before, winner, after, hsplit, hfold, hgt, hbefore, hafter⟩
      · exact Or.inr ⟨[], x, rest, rfl, hfold, hx,
          fun l hl => absurd hl (List.not_mem_nil l), hall⟩
      · refine Or.inr ⟨x :: before, winner, after, by rw [hsplit]; rfl, hfold,
          lt_trans hx hgt, ?_, hafter⟩
        intro l hl
        rcases List.mem_cons.mp hl with rfl | hl
        · exact hgt
        · exact hbefore l hl
    · have hstep : rankStep T (best, code) x = (best, code) := by
        simp only [rankStep, if_neg hx]
      rw [hstep]
      rcases ih best code with
        ⟨hfold, hall⟩ | ⟨before, winner, after, hsplit, hfold, hgt, hbefore, hafter⟩
      · refine Or.inl ⟨hfold, ?_⟩
        intro l hl
        rcases List.mem_cons.mp hl with rfl | hl
        · exact not_lt.mp hx
        · exact hall l hl
      · refine Or.inr ⟨x :: before, winner, after, by rw [hsplit]; rfl, hfold, hgt, ?_,
          hafter⟩
        intro l hl
        rcases List.mem_cons.mp hl with rfl | hl
        · exact lt_of_le_of_lt (not_lt.mp hx) hgt
        · exact hbefore l hl

/-! ## Idempotence and self-similarity -/

theorem map_div_one (p : TrigramProfile ℝ) :
    p.map (fun e => (e.1, e.2 / (1 : ℝ))) = p := by
  conv_rhs => rw [← List.map_id p]
  apply List.map_congr_left
  intro e _
  simp

theorem normalizeTrigramProfile_of_ne_zero (p : TrigramProfile ℝ) (h : sumSquares p ≠ 0) :
    normalizeTrigramProfile Real.sqrt p
      = p.map (fun e => (e.1, e.2 / Real.sqrt (sumSquares p))) := by
  simp [normalizeTrigramProfile, h]

theorem sumSquares_normalizeTrigramProfile (p : TrigramProfile ℝ) (h : sumSquares p ≠ 0) :
    sumSquares (normalizeTrigramProfile Real.sqrt p) = 1 := by
  rw [normalizeTrigramProfile_of_ne_zero p h, sumSquares_map_div,
    Real.mul_self_sqrt (sumSquares_nonneg p)]
  exact div_self h

/-- C11: `normalizeTrigramProfile` is idempotent: normalising the result of a
normalisation changes no value. -/
theorem normalizeTrigramProfile_idempotent (P : TrigramProfile ℝ) :
    normalizeTrigramProfile Real.sqrt (normalizeTrigramProfile Real.sqrt P)
      = normalizeTrigramProfile Real.sqrt P := by
  by_cases h : sumSquares P = 0
  · have hn : normalizeTrigramProfile Real.sqrt P = P := by
      simp [normalizeTrigramProfile, h]
    rw [hn, hn]
  · have h1 := sumSquares_normalizeTrigramProfile P h
    have h1' : sumSquares (normalizeTrigramProfile Real.sqrt P) ≠ 0 := by
      rw [h1]; exact one_ne_zero
    rw [normalizeTrigramProfile_of_ne_zero _ h1', h1, Real.sqrt_one]
    exact map_div_one _

theorem isMap_normalizeTrigramProfile (p : TrigramProfile ℝ) (hp : IsMap p) :
    IsMap (normalizeTrigramProfile Real.sqrt p) := by
  unfold IsMap
  rw [profileKeys_normalizeTrigramProfile]
  exact hp

theorem getCosineSimilarity_self (a : TrigramProfile ℝ) (ha : IsMap a) :
    getCosineSimilarity a a = sumSquares a := by
  rw [getCosineSimilarity_eq_sum a a ha, sumSquares_eq_sum]
  congr 1
  apply List.map_congr_left
  intro e he
  rw [frequency_of_mem a ha e he]

/-- C12: for a map `P` with at least one nonzero frequency, the similarity of
the normalised profile with itself is `1`. -/
theorem getCosineSimilarity_normalized_self (P : TrigramProfile ℝ) (hP : IsMap P)
    (hnz : ∃ e ∈ P, e.2 ≠ 0) :
    getCosineSimilarity (normalizeTrigramProfile Real.sqrt P)
      (normalizeTrigramProfile Real.sqrt P) = 1 := by
  have hss : sumSquares P ≠ 0 := by
    intro h0
    obtain ⟨e, he, hne⟩ := hnz
    exact hne ((sumSquares_eq_zero_iff P).mp h0 e he)
  rw [getCosineSimilarity_self _ (isMap_normalizeTrigramProfile P hP)]
  exact sumSquares_normalizeTrigramProfile P hss

theorem getCosineSimilarity_normalized_self_witness :
    getCosineSimilarity
      (normalizeTrigramProfile Real.sqrt [([97, 98, 99], 3), ([98, 99, 100], 0)])
      (normalizeTrigramProfile Real.sqrt [([97, 98, 99], 3), ([98, 99, 100], 0)]) = 1 :=
  getCosineSimilarity_normalized_self [([97, 98, 99], 3), ([98, 99, 100], 0)]
    (by unfold IsMap profileKeys; decide)
    ⟨([97, 98, 99], 3), by simp, by norm_num⟩

/-- C13: two profiles with no trigram key in common have similarity exactly
`0`; in particular the similarity is `0` when either profile is empty. -/
theorem getCosineSimilarity_disjoint_eq_zero (a b : TrigramProfile ℝ)
    (h : ∀ t ∈ profileKeys a, t ∉ profileKeys b) :
    getCosineSimilarity a b = 0
      ∧ getCosineSimilarity ([] : TrigramProfile ℝ) b = 0
      ∧ getCosineSimilarity a ([] : TrigramProfile ℝ) = 0 :=
  ⟨getCosineSimilarity_of_disjoint a b h, rfl,
    getCosineSimilarity_of_disjoint a [] (fun _ _ hm => by cases hm)⟩

theorem getCosineSimilarity_disjoint_eq_zero_witness :
    getCosineSimilarity (F := ℝ) [([97, 98, 99], 3), ([98, 99, 100], 4)] [([120, 121, 122], 5)] = 0
      ∧ getCosineSimilarity ([] : TrigramProfile ℝ) [([120, 121, 122], 5)] = 0
      ∧ getCosineSimilarity [([97, 98, 99], 3), ([98, 99, 100], 4)] ([] : TrigramProfile ℝ) = 0 :=
  getCosineSimilarity_disjoint_eq_zero [([97, 98, 99], 3), ([98, 99, 100], 4)]
    [([120, 121, 122], 5)]
    (by
      intro t ht
      simp only [profileKeys, List.map_cons, List.map_nil, List.mem_cons, List.mem_singleton,
        List.not_mem_nil, or_false] at ht ⊢
      rcases ht with rfl | rfl <;> decide)

/-! ## `buildTrigramProfile` counts windows -/

theorem mem_profileKeys_incrementAt (k t : CppString) (p : TrigramProfile ℝ) :
    t ∈ profileKeys (incrementAt k p) ↔ t = k ∨ t ∈ profileKeys p := by
  induction p with
  | nil => simp [incrementAt, profileKeys]
  | cons x rest ih =>
    obtain ⟨k', v⟩ := x
    unfold incrementAt
    by_cases h1 : k = k'
    · subst h1
      simp [profileKeys]
    · rw [if_neg h1]
      by_cases h2 : k < k'
      · rw [if_pos h2]; simp [profileKeys]
      · rw [if_neg h2]
        have ih' : t ∈ List.map Prod.fst (incrementAt k rest)
            ↔ t = k ∨ t ∈ List.map Prod.fst rest := ih
        simp only [profileKeys, List.map_cons, List.mem_cons, ih']
        tauto

theorem isMap_incrementAt (k : CppString) (p : TrigramProfile ℝ) (hp : IsMap p) :
    IsMap (incrementAt k p) := by
  induction p with
  | nil => simp [incrementAt, IsMap, profileKeys]
  | cons x rest ih =>
    obtain ⟨k', v⟩ := x
    have hp' : List.Pairwise (· < ·) (k' :: profileKeys rest) := hp
    obtain ⟨hhead, htail⟩ := List.pairwise_cons.mp hp'
    unfold incrementAt
    by_cases h1 : k = k'
    · rw [if_pos h1]; exact hp
    · rw [if_neg h1]
      by_cases h2 : k < k'
      · rw [if_pos h2]
        show List.Pairwise (· < ·) (k :: k' :: profileKeys rest)
        refine List.pairwise_cons.mpr ⟨?_, hp'⟩
        intro a ha
        rcases List.mem_cons.mp ha with rfl | ha
        · exact h2
        · exact lt_trans h2 (hhead a ha)
      · rw [if_neg h2]
        show List.Pairwise (· < ·) (k' :: profileKeys (incrementAt k rest))
        refine List.pairwise_cons.mpr ⟨?_, ih htail⟩
        intro a ha
        rcases (mem_profileKeys_incrementAt k a rest).mp ha with rfl | ha
        · exact lt_of_le_of_ne (not_lt.mp h2) (Ne.symm h1)
        · exact hhead a ha

theorem frequency_incrementAt (k t : CppString) (p : TrigramProfile ℝ) (hp : IsMap p) :
    frequency (incrementAt k p) t
      = if t = k then addOneFloat (frequency p t) else frequency p t := by
  induction p with
  | nil => by_cases h : t = k <;> simp [incrementAt, frequency, h]
  | cons x rest ih =>
    obtain ⟨k', v⟩ := x
    have hp' : List.Pairwise (· < ·) (k' :: profileKeys rest) := hp
    obtain ⟨hhead, htail⟩ := List.pairwise_cons.mp hp'
    unfold incrementAt
    by_cases h1 : k = k'
    · subst h1
      rw [if_pos rfl]
      by_cases h : t = k <;> simp [frequency, h]
    · rw [if_neg h1]
      by_cases h2 : k < k'
      · rw [if_pos h2]
        by_cases h : t = k
        · subst h
          have hnot : t ∉ profileKeys ((k', v) :: rest) := by
            intro hm
            rcases List.mem_cons.mp (show t ∈ k' :: profileKeys rest from hm) with h | h
            · exact h1 h
            · exact lt_asymm h2 (hhead t h)
          rw [frequency_of_not_mem _ t hnot]
          simp [frequency]
        · rw [if_neg h]
          show (if t = k then _ else frequency ((k', v) :: rest) t) = _
          rw [if_neg h]
      · rw [if_neg h2]
        show (if t = k' then v else frequency (incrementAt k rest) t) = _
        by_cases h : t = k'
        · have hne : ¬ k' = k := fun hk => h1 hk.symm
          subst h
          simp [frequency, hne]
        · rw [if_neg h, ih htail]
          simp [frequency, h]

/-- The counter that has counted `c` and is incremented has counted
`c + 1`. -/
theorem addOneFloat_cast_min (c : Nat) :
    addOneFloat (((min c 16777216 : Nat) : ℝ)) = ((min (c + 1) 16777216 : Nat) : ℝ) := by
  unfold addOneFloat
  by_cases h : c < 16777216
  · have h1 : min c 16777216 = c := Nat.min_eq_left (Nat.le_of_lt h)
    have h2 : min (c + 1) 16777216 = c + 1 := Nat.min_eq_left h
    have h3 : ((c : Nat) : ℝ) < 16777216 := by exact_mod_cast h
    rw [h1, h2, if_pos h3]
    push_cast
    rfl
  · have h1 : min c 16777216 = 16777216 := Nat.min_eq_right (Nat.le_of_not_lt h)
    have h2 : min (c + 1) 16777216 = 16777216 := Nat.min_eq_right (by omega)
    rw [h1, h2]
    norm_num

theorem represents_congr {p : TrigramProfile ℝ} {c c' : CppString → Nat}
    (h : ∀ t, c t = c' t) (hp : Represents p c) : Represents p c' := by
  have : c = c' := funext h
  rw [← this]; exact hp

theorem represents_nil : Represents [] (fun _ => 0) := by
  refine ⟨?_, fun t => ⟨?_, ?_⟩⟩
  · exact List.Pairwise.nil
  · simp [frequency]
  · simp [profileKeys]


theorem represents_incrementAt (k : CppString) (p : TrigramProfile ℝ) (c : CppString → Nat)
    (hp : Represents p c) :
    Represents (incrementAt k p) (fun t => c t + (if t = k then 1 else 0)) := by
  refine ⟨isMap_incrementAt k p hp.1, fun t => ⟨?_, ?_⟩⟩
  · rw [frequency_incrementAt k t p hp.1, (hp.2 t).1]
    by_cases h : t = k
    · simp only [if_pos h]
      exact addOneFloat_cast_min (c t)
    · simp only [if_neg h, Nat.add_zero]
  · rw [mem_profileKeys_incrementAt, (hp.2 t).2]
    by_cases h : t = k <;> simp [h]

/-- The inner loop over the start positions `is` of a decoded line. -/
theorem foldlM_addTrigramAt_represents (w : WString) (is : List Nat)
    (hok : ∀ i ∈ is, (to_bytes (substr w i TRIGRAM_SIZE)).isSome = true)
    (p : TrigramProfile ℝ) (c : CppString → Nat) (hp : Represents p c) :
    ∃ p', is.foldlM (addTrigramAt w) p = some p' ∧
      Represents p' (fun t => c t
        + is.countP (fun i => decide (to_bytes (substr w i TRIGRAM_SIZE) = some t))) := by
  induction is generalizing p c with
  | nil => exact ⟨p, rfl, by simpa using hp⟩
  | cons i rest ih =>
    obtain ⟨k, hk⟩ := Option.isSome_iff_exists.mp (hok i (List.mem_cons_self _ _))
    have hstep : addTrigramAt w p i = some (incrementAt k p) := by
      simp [addTrigramAt, hk]
    obtain ⟨p', hp', hrep⟩ := ih (fun j hj => hok j (List.mem_cons_of_mem _ hj))
      (incrementAt k p) _ (represents_incrementAt k p c hp)
    refine ⟨p', ?_, represents_congr ?_ hrep⟩
    · rw [List.foldlM_cons, hstep]; exact hp'
    · intro t
      rw [List.countP_cons, hk]
      by_cases h : t = k
      · subst h; simp; omega
      · have h' : ¬ k = t := fun e => h e.symm
        simp [h, h']

/-- The body of the outer loop adds the window counts of its line. -/
theorem addLine_represents (lineUtf8 : CppString) (w : WString)
    (hw : from_bytes (stripCR lineUtf8) = some w)
    (hok : ∀ i, i + TRIGRAM_SIZE ≤ w.length →
      (to_bytes (substr w i TRIGRAM_SIZE)).isSome = true)
    (p : TrigramProfile ℝ) (c : CppString → Nat) (hp : Represents p c) :
    ∃ p', addLine p lineUtf8 = some p' ∧
      Represents p' (fun t => c t + lineWindowCount t lineUtf8) := by
  by_cases hlen : w.length < TRIGRAM_SIZE
  · refine ⟨p, ?_, represents_congr ?_ hp⟩
    · simp [addLine, hw, hlen]
    · intro t
      have : w.length < 3 := hlen
      simp [lineWindowCount, hw, this]
  · have hok' : ∀ i ∈ List.range (w.length - TRIGRAM_SIZE + 1),
        (to_bytes (substr w i TRIGRAM_SIZE)).isSome = true := by
      intro i hi
      apply hok
      have := List.mem_range.mp hi
      omega
    obtain ⟨p', hp', hrep⟩ := foldlM_addTrigramAt_represents w _ hok' p c hp
    refine ⟨p', ?_, represents_congr ?_ hrep⟩
    · simp only [addLine, hw, if_neg hlen]
      exact hp'
    · intro t
      have : ¬ w.length < 3 := hlen
      simp [lineWindowCount, hw, this, TRIGRAM_SIZE]

/-- The outer loop adds the window counts of all its lines. -/
theorem foldlM_addLine_represents (text : Text) (h : Convertible text)
    (p : TrigramProfile ℝ) (c : CppString → Nat) (hp : Represents p c) :
    ∃ p', text.foldlM addLine p = some p' ∧
      Represents p' (fun t => c t + windowCount t text) := by
  induction text generalizing p c with
  | nil => exact ⟨p, rfl, by simpa [windowCount] using hp⟩
  | cons line rest ih =>
    obtain ⟨w, hw, hok⟩ := h line (List.mem_cons_self _ _)
    obtain ⟨p1, hp1, hrep1⟩ := addLine_represents line w hw hok p c hp
    obtain ⟨p', hp', hrep⟩ := ih (fun l hl => h l (List.mem_cons_of_mem _ hl)) p1 _ hrep1
    refine ⟨p', ?_, represents_congr ?_ hrep⟩
    · rw [List.foldlM_cons, hp1]; exact hp'
    · intro t
      simp [windowCount, add_assoc]

theorem buildTrigramProfile_represents (text : Text) (h : Convertible text) :
    ∃ p : TrigramProfile ℝ, buildTrigramProfile text = some p ∧
      Represents p (fun t => windowCount t text) := by
  obtain ⟨p, hp, hrep⟩ := foldlM_addLine_represents text h [] _ represents_nil
  exact ⟨p, hp, represents_congr (fun t => by simp) hrep⟩

theorem foldlM_some_step {α β : Type} (f : β → α → Option β) (l : List α) (init r : β)
    (h : l.foldlM f init = some r) : ∀ x ∈ l, ∃ s s', f s x = some s' := by
  induction l generalizing init with
  | nil => intro x hx; cases hx
  | cons a rest ih =>
    rw [List.foldlM_cons] at h
    cases hstep : f init a with
    | none => rw [hstep] at h; cases h
    | some s1 =>
      rw [hstep] at h
      intro x hx
      rcases List.mem_cons.mp hx with rfl | hx
      · exact ⟨init, s1, hstep⟩
      · exact ih s1 h x hx

/-- The profile is returned exactly on the convertible texts: a failing
conversion is the only way for `buildTrigramProfile` to raise. -/
theorem buildTrigramProfile_returns_iff (text : Text) :
    (∃ p : TrigramProfile ℝ, buildTrigramProfile text = some p) ↔ Convertible text := by
  constructor
  · rintro ⟨p, hp⟩ line hl
    obtain ⟨s, s', hs⟩ := foldlM_some_step addLine text [] p hp line hl
    unfold addLine at hs
    cases hw : from_bytes (stripCR line) with
    | none => rw [hw] at hs; cases hs
    | some w =>
      rw [hw] at hs
      refine ⟨w, rfl, ?_⟩
      intro i hi
      have hlen : ¬ w.length < TRIGRAM_SIZE := by omega
      simp only [if_neg hlen] at hs
      obtain ⟨q, q', hq⟩ := foldlM_some_step (addTrigramAt w) _ s s' hs i
        (List.mem_range.mpr (by omega))
      unfold addTrigramAt at hq
      cases hk : to_bytes (substr w i TRIGRAM_SIZE) with
      | none => rw [hk] at hq; cases hq
      | some k => rfl
  · intro h
    obtain ⟨p, hp, _⟩ := buildTrigramProfile_represents text h
    exact ⟨p, hp⟩

/-! ## Maps with the same keys and frequencies -/

theorem frequency_tail_of_isMap (k : CppString) (v : ℝ) (p : TrigramProfile ℝ)
    (hp : IsMap ((k, v) :: p)) (t : CppString) :
    frequency p t = if t = k then 0 else frequency ((k, v) :: p) t := by
  by_cases h : t = k
  · subst h
    rw [if_pos rfl]
    exact frequency_of_not_mem p t (isMap_head_not_mem hp)
  · rw [if_neg h]
    simp [frequency, h]

/-- Two maps with the same keys and the same frequencies are the same list. -/
theorem isMap_ext_of_keys (p q : TrigramProfile ℝ) (hp : IsMap p) (hq : IsMap q)
    (hk : profileKeys p = profileKeys q) (hf : ∀ t, frequency p t = frequency q t) :
    p = q := by
  induction p generalizing q with
  | nil =>
    cases q with
    | nil => rfl
    | cons y q' => simp [profileKeys] at hk
  | cons x p' ih =>
    cases q with
    | nil => simp [profileKeys] at hk
    | cons y q' =>
      obtain ⟨k, v⟩ := x
      obtain ⟨k', v'⟩ := y
      simp only [profileKeys, List.map_cons, List.cons.injEq] at hk
      obtain ⟨hkk, hrest⟩ := hk
      subst hkk
      have hv : v = v' := by
        have := hf k
        simpa [frequency] using this
      subst hv
      have htail : p' = q' := by
        apply ih q' (isMap_tail hp) (isMap_tail hq) hrest
        intro t
        rw [frequency_tail_of_isMap k v p' hp t, frequency_tail_of_isMap k v q' hq t]
        by_cases h : t = k
        · simp [h]
        · simp only [if_neg h]
          exact hf t
      rw [htail]

theorem isMap_ext (p q : TrigramProfile ℝ) (hp : IsMap p) (hq : IsMap q)
    (hk : ∀ t, t ∈ profileKeys p ↔ t ∈ profileKeys q)
    (hf : ∀ t, frequency p t = frequency q t) : p = q := by
  apply isMap_ext_of_keys p q hp hq _ hf
  have hperm : (profileKeys p).Perm (profileKeys q) :=
    (List.perm_ext_iff_of_nodup (isMap_nodup hp) (isMap_nodup hq)).mpr hk
  exact List.eq_of_perm_of_sorted hperm hp hq

theorem represents_unique {p q : TrigramProfile ℝ} {c : CppString → Nat}
    (hp : Represents p c) (hq : Represents q c) : p = q :=
  isMap_ext p q hp.1 hq.1
    (fun t => by rw [(hp.2 t).2, (hq.2 t).2])
    (fun t => by rw [(hp.2 t).1, (hq.2 t).1])

/-! ## The converter on the Basic Multilingual Plane -/

theorem val_ofNat_of_lt (n : Nat) (h : n < 256) : (Fin.ofNat n : Fin 256).val = n :=
  Nat.mod_eq_of_lt h

theorem readUtf8CodePoint_utf8Bytes (c : Nat) (hc : IsBmpScalar c) (rest : CppString) :
    readUtf8CodePoint (utf8Bytes c ++ rest) = .codePoint c (utf8Bytes c).length := by
  have hlt : c < 0x10000 := by rcases hc with h | h <;> omega
  unfold utf8Bytes
  by_cases h1 : c < 0x80
  · rw [if_pos h1]
    have hv := val_ofNat_of_lt c (by omega)
    simp only [List.singleton_append, readUtf8CodePoint, hv, if_pos h1, List.length_singleton]
  · rw [if_neg h1]
    by_cases h2 : c < 0x800
    · rw [if_pos h2]
      have hv1 := val_ofNat_of_lt (0xC0 + c / 0x40) (by omega)
      have hv2 := val_ofNat_of_lt (0x80 + c % 0x40) (by omega)
      have e1 : ¬ (0xC0 + c / 0x40 < 0x80) := by omega
      have e2 : ¬ (0xC0 + c / 0x40 < 0xC2) := by omega
      have e3 : 0xC0 + c / 0x40 < 0xE0 := by omega
      have e4 : isContinuation (Fin.ofNat (0x80 + c % 0x40)) = true := by
        simp only [isContinuation, hv2, Bool.and_eq_true, decide_eq_true_eq]
        omega
      have e5 : (0xC0 + c / 0x40 - 0xC0) * 0x40 + (0x80 + c % 0x40 - 0x80) = c := by omega
      simp only [List.cons_append, List.nil_append, readUtf8CodePoint, hv1, hv2, if_neg e1,
        if_neg e2, if_pos e3, e4, if_true, e5, List.length_cons, List.length_nil]
    · rw [if_neg h2, if_pos hlt]
      have hv1 := val_ofNat_of_lt (0xE0 + c / 0x1000) (by omega)
      have hv2 := val_ofNat_of_lt (0x80 + c / 0x40 % 0x40) (by omega)
      have hv3 := val_ofNat_of_lt (0x80 + c % 0x40) (by omega)
      have e1 : ¬ (0xE0 + c / 0x1000 < 0x80) := by omega
      have e2 : ¬ (0xE0 + c / 0x1000 < 0xC2) := by omega
      have e3 : ¬ (0xE0 + c / 0x1000 < 0xE0) := by omega
      have e3' : 0xE0 + c / 0x1000 < 0xF0 := by omega
      have e4 : isContinuation (Fin.ofNat (0x80 + c / 0x40 % 0x40)) = true := by
        simp only [isContinuation, hv2, Bool.and_eq_true, decide_eq_true_eq]
        omega
      have e5 : isContinuation (Fin.ofNat (0x80 + c % 0x40)) = true := by
        simp only [isContinuation, hv3, Bool.and_eq_true, decide_eq_true_eq]
        omega
      have e6 : (!(decide (0xE0 + c / 0x1000 = 0xE0)
          && decide (0x80 + c / 0x40 % 0x40 < 0xA0))) = true := by
        simp only [Bool.not_eq_true', Bool.and_eq_false_iff, decide_eq_false_iff_not]
        omega
      have e8 : (0xE0 + c / 0x1000 - 0xE0) * 0x1000 + (0x80 + c / 0x40 % 0x40 - 0x80) * 0x40
          + (0x80 + c % 0x40 - 0x80) = c := by omega
      simp only [List.cons_append, List.nil_append, readUtf8CodePoint, hv1, hv2, hv3,
        if_neg e1, if_neg e2, if_neg e3, if_pos e3', e4, e5, e6, Bool.and_self, if_true,
        e8, List.length_cons, List.length_nil]

theorem utf8Bytes_ne_nil (c : Nat) : utf8Bytes c ≠ [] := by
  unfold utf8Bytes
  split_ifs <;> simp

theorem decodeFrom_skip (pre rest : CppString) :
    decodeFrom pre.length (pre ++ rest) = decodeFrom 0 rest := by
  induction pre with
  | nil => rfl
  | cons b bs ih =>
    show decodeFrom (bs.length + 1) (b :: (bs ++ rest)) = _
    rw [decodeFrom]
    exact ih

theorem from_bytes_utf8Bytes_append (c : Nat) (hc : IsBmpScalar c) (rest : CppString) :
    from_bytes (utf8Bytes c ++ rest) = (from_bytes rest).map (fun w => c :: w) := by
  have hlt : c < 0x10000 := by rcases hc with h | h <;> omega
  have hread := readUtf8CodePoint_utf8Bytes c hc rest
  unfold from_bytes
  obtain ⟨b, bs, hb⟩ := List.exists_cons_of_ne_nil (utf8Bytes_ne_nil c)
  rw [hb] at hread ⊢
  show decodeFrom 0 (b :: (bs ++ rest)) = _
  rw [decodeFrom, show b :: (bs ++ rest) = b :: bs ++ rest from rfl, hread]
  simp only [List.length_cons, Nat.add_sub_cancel]
  rw [decodeFrom_skip]
  simp [utf16Units, hlt]

theorem from_bytes_encodeUtf8 (cps : List Nat) (h : ∀ c ∈ cps, IsBmpScalar c) :
    from_bytes (encodeUtf8 cps) = some cps := by
  induction cps with
  | nil => rfl
  | cons c cs ih =>
    rw [encodeUtf8, from_bytes_utf8Bytes_append c (h c (List.mem_cons_self _ _)),
      ih (fun x hx => h x (List.mem_cons_of_mem _ hx))]
    rfl

theorem to_bytes_of_bmp (w : WString) (h : ∀ u ∈ w, IsBmpScalar u) :
    to_bytes w = some (encodeUtf8 w) := by
  induction w with
  | nil => rfl
  | cons u rest ih =>
    have hu := h u (List.mem_cons_self _ _)
    have e1 : ¬ (0xD800 ≤ u ∧ u < 0xDC00) := by rcases hu with h | h <;> omega
    have e2 : ¬ (0xDC00 ≤ u ∧ u < 0xE000) := by rcases hu with h | h <;> omega
    have e3 : ¬ (0x10FFFF < u) := by rcases hu with h | h <;> omega
    rw [to_bytes.eq_def]
    simp only [if_neg e1, if_neg e2, if_neg e3]
    rw [ih (fun x hx => h x (List.mem_cons_of_mem _ hx))]
    rfl

theorem to_bytes_isSome_of_bmp (w : WString) (h : ∀ u ∈ w, IsBmpScalar u) :
    (to_bytes w).isSome = true := by
  rw [to_bytes_of_bmp w h]; rfl

theorem mem_substr {w : WString} {i n u : Nat} (h : u ∈ substr w i n) : u ∈ w :=
  List.mem_of_mem_drop (List.mem_of_mem_take h)

/-- A text whose lines, without their trailing carriage return, are the UTF-8
encoding of scalar values of the Basic Multilingual Plane is convertible. -/
theorem convertible_of_bmp (text : Text)
    (h : ∀ line ∈ text, ∃ cps, (∀ c ∈ cps, IsBmpScalar c) ∧ stripCR line = encodeUtf8 cps) :
    Convertible text := by
  intro line hl
  obtain ⟨cps, hbmp, henc⟩ := h line hl
  refine ⟨cps, by rw [henc]; exact from_bytes_encodeUtf8 cps hbmp, ?_⟩
  intro i _
  exact to_bytes_isSome_of_bmp _ (fun u hu => hbmp u (mem_substr hu))

/-! ## Lines of code points of the Basic Multilingual Plane -/

theorem lineWindowCount_of_bmp (t line : CppString) (cps : List Nat)
    (hbmp : ∀ c ∈ cps, IsBmpScalar c) (henc : stripCR line = encodeUtf8 cps) :
    lineWindowCount t line = codePointWindowCount t cps := by
  unfold lineWindowCount codePointWindowCount
  rw [henc, from_bytes_encodeUtf8 cps hbmp]
  simp only
  split
  · rfl
  · apply List.countP_congr
    intro i _
    have hw : to_bytes (substr cps i 3) = some (encodeUtf8 (substr cps i 3)) :=
      to_bytes_of_bmp _ (fun u hu => hbmp u (mem_substr hu))
    rw [hw]
    simp [substr]

theorem convertible_of_encodesLines {text : Text} {lines : List (List Nat)}
    (h : EncodesLines text lines) : Convertible text := by
  apply convertible_of_bmp
  unfold EncodesLines at h
  induction h with
  | nil => intro line hl; cases hl
  | cons hhead _ ih =>
    intro line hl
    rcases List.mem_cons.mp hl with rfl | hl
    · exact ⟨_, hhead.1, hhead.2⟩
    · exact ih line hl

theorem windowCount_of_encodesLines (t : CppString) {text : Text} {lines : List (List Nat)}
    (h : EncodesLines text lines) : windowCount t text = textWindowCount t lines := by
  unfold EncodesLines at h
  unfold windowCount textWindowCount
  induction h with
  | nil => rfl
  | cons hhead _ ih =>
    simp only [List.map_cons, List.sum_cons, ih,
      lineWindowCount_of_bmp t _ _ hhead.1 hhead.2]

/-- The profile of a text made of lines of code points of the Basic
Multilingual Plane: every counter holds the number of windows of its trigram, up
to 2^24. -/
theorem buildTrigramProfile_of_encodesLines (text : Text) (lines : List (List Nat))
    (h : EncodesLines text lines) :
    ∃ p : TrigramProfile ℝ, buildTrigramProfile text = some p
      ∧ Represents p (fun t => textWindowCount t lines) := by
  obtain ⟨p, hp, hrep⟩ := buildTrigramProfile_represents text (convertible_of_encodesLines h)
  exact ⟨p, hp, represents_congr (fun t => windowCount_of_encodesLines t h) hrep⟩

/-- C3 (amended): for a text whose lines, once one trailing carriage return is
removed, are UTF-8 encodings of code points of the Basic Multilingual Plane,
`buildTrigramProfile` returns a profile in which the frequency of every trigram
`t` is the number of pairs `(line, i)` whose window of 3 code points at
position `i` of a line of at least 3 code points is `t`, as long as that number
is at most 2^24 = 16777216, where the `float` counter stays; `t` is a key
exactly when the number is positive. -/
theorem buildTrigramProfile_counts_code_point_windows (text : Text)
    (lines : List (List Nat)) (h : EncodesLines text lines) :
    ∃ p : TrigramProfile ℝ, buildTrigramProfile text = some p ∧
      ∀ t, frequency p t = ((min (textWindowCount t lines) 16777216 : Nat) : ℝ)
        ∧ (textWindowCount t lines ≤ 16777216
            → frequency p t = (textWindowCount t lines : ℝ))
        ∧ (t ∈ profileKeys p ↔ 0 < textWindowCount t lines) := by
  obtain ⟨p, hp, hrep⟩ := buildTrigramProfile_of_encodesLines text lines h
  refine ⟨p, hp, fun t => ⟨(hrep.2 t).1, ?_, (hrep.2 t).2⟩⟩
  intro hle
  rw [(hrep.2 t).1, Nat.min_eq_left hle]

theorem buildTrigramProfile_counts_code_point_windows_witness :
    ∃ p : TrigramProfile ℝ,
      buildTrigramProfile [[97, 98, 99, 97, 98, 99, 13], [97, 98]] = some p ∧
      ∀ t, frequency p t
          = ((min (textWindowCount t [[97, 98, 99, 97, 98, 99], [97, 98]]) 16777216 : Nat) : ℝ)
        ∧ (textWindowCount t [[97, 98, 99, 97, 98, 99], [97, 98]] ≤ 16777216
            → frequency p t = (textWindowCount t [[97, 98, 99, 97, 98, 99], [97, 98]] : ℝ))
        ∧ (t ∈ profileKeys p ↔ 0 < textWindowCount t [[97, 98, 99, 97, 98, 99], [97, 98]]) :=
  buildTrigramProfile_counts_code_point_windows [[97, 98, 99, 97, 98, 99, 13], [97, 98]]
    [[97, 98, 99, 97, 98, 99], [97, 98]]
    (List.Forall₂.cons ⟨by decide, by decide⟩
      (List.Forall₂.cons ⟨by decide, by decide⟩ List.Forall₂.nil))

/-! ## Lines made of the letter `a`: counters that reach 2^24 -/

theorem stripCR_replicate_a (n : Nat) :
    stripCR (List.replicate n (97 : Byte)) = List.replicate n 97 := by
  unfold stripCR
  split
  · rename_i h
    exfalso
    have hm : (0x0D : Byte) ∈ List.replicate n (97 : Byte) := List.mem_of_mem_getLast? h.2
    exact absurd (List.eq_of_mem_replicate hm) (by decide)
  · rfl

theorem encodeUtf8_replicate_a (n : Nat) :
    encodeUtf8 (List.replicate n 97) = List.replicate n (97 : Byte) := by
  induction n with
  | zero => rfl
  | succ k ih =>
    rw [List.replicate_succ, encodeUtf8, ih, List.replicate_succ]
    rfl

theorem encodesLines_replicate_a (ns : List Nat) :
    EncodesLines (ns.map (fun n => List.replicate n (97 : Byte)))
      (ns.map (fun n => List.replicate n 97)) := by
  unfold EncodesLines
  induction ns with
  | nil => exact List.Forall₂.nil
  | cons n rest ih =>
    refine List.Forall₂.cons ⟨?_, ?_⟩ ih
    · intro c hc
      rw [List.eq_of_mem_replicate hc]
      decide
    · rw [stripCR_replicate_a, encodeUtf8_replicate_a]

theorem codePointWindowCount_replicate_a (t : CppString) (n : Nat) :
    codePointWindowCount t (List.replicate n 97)
      = if t = [97, 97, 97] then n - 2 else 0 := by
  unfold codePointWindowCount
  rw [List.length_replicate]
  by_cases hn : n < 3
  · rw [if_pos hn]
    split
    · omega
    · rfl
  · rw [if_neg hn]
    have hwin : ∀ i ∈ List.range (n - 3 + 1),
        decide (encodeUtf8 (((List.replicate n 97).drop i).take 3) = t)
          = decide (([97, 97, 97] : CppString) = t) := by
      intro i hi
      have hi' := List.mem_range.mp hi
      have h3 : min 3 (n - i) = 3 := by omega
      rw [List.drop_replicate, List.take_replicate, h3]
      rfl
    rw [List.countP_congr (q := fun _ => decide (([97, 97, 97] : CppString) = t))
      (fun i hi => by rw [hwin i hi])]
    by_cases ht : t = [97, 97, 97]
    · subst ht
      rw [if_pos rfl]
      simp
      omega
    · rw [if_neg ht]
      have : ¬ ([97, 97, 97] : CppString) = t := fun e => ht e.symm
      simp [this]

theorem textWindowCount_replicate_a (t : CppString) (ns : List Nat) :
    textWindowCount t (ns.map (fun n => List.replicate n 97))
      = if t = [97, 97, 97] then (ns.map (fun n => n - 2)).sum else 0 := by
  unfold textWindowCount
  induction ns with
  | nil => simp
  | cons n rest ih =>
    simp only [List.map_cons, List.sum_cons, ih, codePointWindowCount_replicate_a]
    split <;> rfl

/-- The profile of lines made of the letter `a`: the one counter of `aaa`. -/
theorem buildTrigramProfile_lines_of_a (ns : List Nat) (hpos : 0 < (ns.map (fun n => n - 2)).sum) :
    buildTrigramProfile (ns.map (fun n => List.replicate n (97 : Byte)))
      = some ([([97, 97, 97], ((min (ns.map (fun n => n - 2)).sum 16777216 : Nat) : ℝ))] :
          TrigramProfile ℝ) := by
  obtain ⟨p, hp, hrep⟩ := buildTrigramProfile_of_encodesLines _ _ (encodesLines_replicate_a ns)
  have hrep' : Represents
      ([([97, 97, 97], ((min (ns.map (fun n => n - 2)).sum 16777216 : Nat) : ℝ))] :
        TrigramProfile ℝ)
      (fun t => textWindowCount t (ns.map (fun n => List.replicate n 97))) := by
    refine ⟨by unfold IsMap profileKeys; simp, fun t => ⟨?_, ?_⟩⟩
    · show _ = ((min (textWindowCount t (ns.map (fun n => List.replicate n 97))) 16777216 :
        Nat) : ℝ)
      rw [textWindowCount_replicate_a]
      by_cases ht : t = [97, 97, 97]
      · simp [frequency, ht]
      · simp [frequency, ht]
    · show _ ↔ 0 < textWindowCount t (ns.map (fun n => List.replicate n 97))
      rw [textWindowCount_replicate_a]
      by_cases ht : t = [97, 97, 97]
      · simp [profileKeys, ht, hpos]
      · simp [profileKeys, ht]
  rw [hp, represents_unique hrep hrep']

/-- C3 as stated fails: on the line of the byte `0x80` no profile is returned;
the line `a U+1F600` has 2 code points, so no window of 3 code points, and yet
its key is counted once (the emoji is two `wchar_t` units); and on the line of
16777219 letters `a` the trigram `aaa` has 16777217 windows while its frequency
is 16777216, where the `float` counter stays. -/
theorem buildTrigramProfile_window_count_fails :
    buildTrigramProfile [[0x80]] = (none : Option (TrigramProfile ℝ))
    ∧ (∃ p : TrigramProfile ℝ,
        buildTrigramProfile [encodeUtf8 [0x61, 0x1F600]] = some p
        ∧ textWindowCount (encodeUtf8 [0x61, 0x1F600]) [[0x61, 0x1F600]] = 0
        ∧ frequency p (encodeUtf8 [0x61, 0x1F600]) = 1)
    ∧ (∃ p : TrigramProfile ℝ,
        buildTrigramProfile [List.replicate 16777219 (97 : Byte)] = some p
        ∧ textWindowCount [97, 97, 97] [List.replicate 16777219 97] = 16777217
        ∧ frequency p [97, 97, 97] = 16777216) := by
  refine ⟨rfl, ⟨[(encodeUtf8 [0x61, 0x1F600], addOneFloat 0)], rfl, by decide, ?_⟩, ?_⟩
  · have : frequency ([(encodeUtf8 [0x61, 0x1F600], addOneFloat 0)] : TrigramProfile ℝ)
        (encodeUtf8 [0x61, 0x1F600]) = addOneFloat 0 := by
      simp [frequency]
    rw [this]
    norm_num [addOneFloat]
  · have hb := buildTrigramProfile_lines_of_a [16777219] (by norm_num)
    have hc := textWindowCount_replicate_a [97, 97, 97] [16777219]
    simp only [List.map_cons, List.map_nil, List.sum_cons, List.sum_nil, if_pos] at hb hc
    refine ⟨_, hb, by rw [hc]; rfl, ?_⟩
    simp [frequency]

/-! ## The number of trigrams of a single line -/

theorem addOneFloat_of_lt {x : ℝ} (h : x < 16777216) : addOneFloat x = x + 1 := by
  unfold addOneFloat
  rw [if_pos h]

/-- While every counter is at most `m < 2^24`, an increment adds exactly 1 to
the sum of the frequencies. -/
theorem frequencySum_incrementAt (k : CppString) (p : TrigramProfile ℝ) (m : ℝ)
    (hm0 : 0 ≤ m) (hm : m < 16777216) (hp : ∀ e ∈ p, 0 ≤ e.2 ∧ e.2 ≤ m) :
    frequencySum (incrementAt k p) = frequencySum p + 1
      ∧ ∀ e ∈ incrementAt k p, 0 ≤ e.2 ∧ e.2 ≤ m + 1 := by
  have h0 : addOneFloat (0 : ℝ) = 0 + 1 := addOneFloat_of_lt (by norm_num)
  induction p with
  | nil =>
    constructor
    · simp [incrementAt, frequencySum, h0]
    · intro e he
      have : e = (k, addOneFloat 0) := by simpa [incrementAt] using he
      rw [this, h0]
      exact ⟨by norm_num, by show (0 : ℝ) + 1 ≤ m + 1; linarith⟩
  | cons x rest ih =>
    obtain ⟨k', v⟩ := x
    have hv : 0 ≤ v ∧ v ≤ m := hp (k', v) (List.mem_cons_self _ _)
    have hrest : ∀ e ∈ rest, 0 ≤ e.2 ∧ e.2 ≤ m := fun e he => hp e (List.mem_cons_of_mem _ he)
    have hv1 : addOneFloat v = v + 1 := addOneFloat_of_lt (lt_of_le_of_lt hv.2 hm)
    have hold : ∀ e ∈ (k', v) :: rest, 0 ≤ e.2 ∧ e.2 ≤ m + 1 :=
      fun e he => ⟨(hp e he).1, by linarith [(hp e he).2]⟩
    unfold incrementAt
    by_cases h1 : k = k'
    · rw [if_pos h1]
      constructor
      · simp [frequencySum, hv1]; ring
      · intro e he
        rcases List.mem_cons.mp he with rfl | he
        · rw [hv1]
          exact ⟨by show 0 ≤ v + 1; linarith [hv.1], by show v + 1 ≤ m + 1; linarith [hv.2]⟩
        · exact hold e (List.mem_cons_of_mem _ he)
    · rw [if_neg h1]
      by_cases h2 : k < k'
      · rw [if_pos h2]
        constructor
        · simp [frequencySum, h0]; ring
        · intro e he
          rcases List.mem_cons.mp he with rfl | he
          · rw [h0]
            exact ⟨by norm_num, by show (0 : ℝ) + 1 ≤ m + 1; linarith⟩
          · exact hold e he
      · rw [if_neg h2]
        obtain ⟨ihs, ihb⟩ := ih hrest
        constructor
        · have ihs' : (List.map Prod.snd (incrementAt k rest)).sum
              = (List.map Prod.snd rest).sum + 1 := ihs
          simp only [frequencySum, List.map_cons, List.sum_cons, ihs']
          ring
        · intro e he
          rcases List.mem_cons.mp he with rfl | he
          · exact hold _ (List.mem_cons_self _ _)
          · exact ihb e he

theorem foldlM_addTrigramAt_frequencySum (w : WString) (is : List Nat)
    (p p' : TrigramProfile ℝ) (m : Nat) (hm : m + is.length ≤ 16777216)
    (hp : frequencySum p = m ∧ ∀ e ∈ p, 0 ≤ e.2 ∧ e.2 ≤ (m : ℝ))
    (h : is.foldlM (addTrigramAt w) p = some p') :
    frequencySum p' = ((m + is.length : Nat) : ℝ) := by
  induction is generalizing p m with
  | nil =>
    have : p = p' := by simpa using h
    subst this
    simpa using hp.1
  | cons i rest ih =>
    rw [List.foldlM_cons] at h
    cases hstep : addTrigramAt w p i with
    | none => rw [hstep] at h; cases h
    | some p1 =>
      rw [hstep] at h
      have h1 : ∃ k, p1 = incrementAt k p := by
        unfold addTrigramAt at hstep
        split at hstep
        · cases hstep
        · exact ⟨_, (Option.some.inj hstep).symm⟩
      obtain ⟨k, rfl⟩ := h1
      rw [List.length_cons] at hm
      have hlt : (m : ℝ) < 16777216 := by
        have : m < 16777216 := by omega
        exact_mod_cast this
      obtain ⟨hs, hb⟩ := frequencySum_incrementAt k p m (Nat.cast_nonneg m) hlt hp.2
      have hnext := ih (incrementAt k p) (m + 1) (by omega)
        ⟨by rw [hs, hp.1]; push_cast; rfl, fun e he => by
          have := hb e he
          push_cast
          exact this⟩ h
      rw [hnext, List.length_cons]
      congr 1
      omega

/-- A single line that, without its trailing carriage return, is the UTF-8
encoding of `n ≤ 2^24 + 2` scalar values of the Basic Multilingual Plane: the
frequencies sum to `n - 2` when `n ≥ 3`, and the profile is empty when
`n < 3`. -/
theorem buildTrigramProfile_single_line_bmp (line : CppString) (cps : List Nat)
    (hbmp : ∀ c ∈ cps, IsBmpScalar c) (henc : stripCR line = encodeUtf8 cps)
    (hlen : cps.length ≤ 16777218) :
    ∃ p : TrigramProfile ℝ, buildTrigramProfile [line] = some p
      ∧ (3 ≤ cps.length → frequencySum p = ((cps.length - 2 : Nat) : ℝ))
      ∧ (cps.length < 3 → p = []) := by
  have hconv : Convertible [line] := convertible_of_bmp [line] (by
    intro l hl
    rcases List.mem_cons.mp hl with rfl | hl
    · exact ⟨cps, hbmp, henc⟩
    · cases hl)
  obtain ⟨p, hp, _⟩ := buildTrigramProfile_represents [line] hconv
  have hw : from_bytes (stripCR line) = some cps := by
    rw [henc]; exact from_bytes_encodeUtf8 cps hbmp
  refine ⟨p, hp, ?_, ?_⟩
  · intro hn
    have hlen3 : ¬ cps.length < TRIGRAM_SIZE := by unfold TRIGRAM_SIZE; omega
    have h2 : (List.range (cps.length - TRIGRAM_SIZE + 1)).foldlM (addTrigramAt cps) []
        = some p := by
      have := hp
      simp only [buildTrigramProfile, List.foldlM_cons, List.foldlM_nil, addLine, hw,
        if_neg hlen3] at this
      simpa using this
    have hsum := foldlM_addTrigramAt_frequencySum cps _ [] p 0
      (by rw [List.length_range]; unfold TRIGRAM_SIZE; omega)
      ⟨by simp [frequencySum], fun e he => absurd he (List.not_mem_nil e)⟩ h2
    rw [hsum, List.length_range]
    congr 1
    unfold TRIGRAM_SIZE
    omega
  · intro hn
    have hlen3 : cps.length < TRIGRAM_SIZE := hn
    have := hp
    simp only [buildTrigramProfile, List.foldlM_cons, List.foldlM_nil, addLine, hw,
      if_pos hlen3] at this
    simpa using this.symm

/-- C5 (amended): for a single line that, once one trailing carriage return is
removed, is the UTF-8 encoding of `n` code points of the Basic Multilingual
Plane, with `n ≤ 16777218` so that no `float` counter reaches 2^24, the
frequencies of `buildTrigramProfile` sum to `n - 2` when `n ≥ 3` and the
profile is empty when `n < 3`. -/
theorem buildTrigramProfile_single_line_count (line : CppString) (cps : List Nat)
    (hbmp : ∀ c ∈ cps, IsBmpScalar c) (henc : stripCR line = encodeUtf8 cps)
    (hlen : cps.length ≤ 16777218) :
    ∃ p : TrigramProfile ℝ, buildTrigramProfile [line] = some p
      ∧ (3 ≤ cps.length → frequencySum p = ((cps.length - 2 : Nat) : ℝ))
      ∧ (cps.length < 3 → p = []) :=
  buildTrigramProfile_single_line_bmp line cps hbmp henc hlen

theorem buildTrigramProfile_single_line_count_witness :
    ∃ p : TrigramProfile ℝ, buildTrigramProfile [[97, 98, 99, 97, 98, 13]] = some p
      ∧ (3 ≤ [97, 98, 99, 97, 98].length
          → frequencySum p = (([97, 98, 99, 97, 98].length - 2 : Nat) : ℝ))
      ∧ ([97, 98, 99, 97, 98].length < 3 → p = []) :=
  buildTrigramProfile_single_line_count [97, 98, 99, 97, 98, 13] [97, 98, 99, 97, 98]
    (by decide) (by decide) (by decide)

/-- C5 as stated fails: the line `U+1F600 U+0061` has 2 code points and yet
one trigram is counted (the emoji is two `wchar_t` units); the line
`a b U+000D` has 3 code points and yet no trigram is counted (the trailing
carriage return is removed first); and the line of 16777219 letters `a` has
frequencies that sum to 16777216, not to 16777217 (the `float` counter stays at
2^24). -/
theorem buildTrigramProfile_code_point_count_fails :
    (∃ p : TrigramProfile ℝ, buildTrigramProfile [encodeUtf8 [0x1F600, 0x61]] = some p
        ∧ [0x1F600, 0x61].length < 3 ∧ p ≠ [])
      ∧ (∃ p : TrigramProfile ℝ, buildTrigramProfile [encodeUtf8 [0x61, 0x62, 0x0D]] = some p
        ∧ 3 ≤ [0x61, 0x62, 0x0D].length
        ∧ frequencySum p ≠ (([0x61, 0x62, 0x0D].length - 2 : Nat) : ℝ))
      ∧ (∃ p : TrigramProfile ℝ,
        buildTrigramProfile [encodeUtf8 (List.replicate 16777219 0x61)] = some p
        ∧ (List.replicate 16777219 0x61).length = 16777219
        ∧ frequencySum p = 16777216
        ∧ frequencySum p ≠ ((16777219 - 2 : Nat) : ℝ)) := by
  refine ⟨⟨[(encodeUtf8 [0x1F600, 0x61], addOneFloat 0)], rfl, by decide, by simp⟩,
    ⟨[], rfl, by decide, by simp [frequencySum]⟩, ?_⟩
  have hb := buildTrigramProfile_lines_of_a [16777219] (by norm_num)
  simp only [List.map_cons, List.map_nil, List.sum_cons, List.sum_nil] at hb
  rw [encodeUtf8_replicate_a]
  refine ⟨_, hb, List.length_replicate _ _, ?_, ?_⟩ <;>
  simp [frequencySum]

/-! ## `identifyLanguage` -/

theorem represents_entries_nonneg {p : TrigramProfile ℝ} {c : CppString → Nat}
    (h : Represents p c) : ∀ e ∈ p, 0 ≤ e.2 := by
  intro e he
  rw [← frequency_of_mem p h.1 e he, (h.2 e.1).1]
  exact Nat.cast_nonneg _

theorem normalizeTrigramProfile_nonneg (p : TrigramProfile ℝ) (h : ∀ e ∈ p, 0 ≤ e.2) :
    ∀ e ∈ normalizeTrigramProfile Real.sqrt p, 0 ≤ e.2 := by
  unfold normalizeTrigramProfile
  split
  · exact h
  · intro e he
    obtain ⟨x, hx, rfl⟩ := List.mem_map.mp he
    exact div_nonneg (h x hx) (Real.sqrt_nonneg _)

theorem foldl_rankStep_of_le (T : TrigramProfile ℝ) (languages : LanguageProfiles ℝ)
    (best : ℝ) (code : String)
    (h : ∀ l ∈ languages, getCosineSimilarity T l.trigramProfile ≤ best) :
    languages.foldl (rankStep T) (best, code) = (best, code) := by
  induction languages with
  | nil => rfl
  | cons x rest ih =>
    have hx : ¬ getCosineSimilarity T x.trigramProfile > best :=
      not_lt.mpr (h x (List.mem_cons_self _ _))
    rw [List.foldl_cons]
    simp only [rankStep, if_neg hx]
    exact ih (fun l hl => h l (List.mem_cons_of_mem _ hl))

/-- When every language scores `0`, the loop keeps the first language. -/
theorem identifyLanguage_of_all_zero (text : Text) (built : TrigramProfile ℝ)
    (hb : buildTrigramProfile text = some built) (first : LanguageProfile ℝ)
    (rest : LanguageProfiles ℝ)
    (hzero : ∀ l ∈ first :: rest,
      getCosineSimilarity (normalizeTrigramProfile Real.sqrt built) l.trigramProfile = 0) :
    identifyLanguage Real.sqrt text (first :: rest) = some first.languageCode := by
  have h0 := hzero first (List.mem_cons_self _ _)
  have hgt : getCosineSimilarity (normalizeTrigramProfile Real.sqrt built)
      first.trigramProfile > -1 := by rw [h0]; norm_num
  have hrest : ∀ l ∈ rest, getCosineSimilarity (normalizeTrigramProfile Real.sqrt built)
      l.trigramProfile ≤ getCosineSimilarity (normalizeTrigramProfile Real.sqrt built)
        first.trigramProfile := by
    intro l hl
    rw [h0, hzero l (List.mem_cons_of_mem _ hl)]
  simp only [identifyLanguage, hb, List.foldl_cons]
  have hstep : rankStep (normalizeTrigramProfile Real.sqrt built) (-1, "---") first
      = (getCosineSimilarity (normalizeTrigramProfile Real.sqrt built) first.trigramProfile,
          first.languageCode) := by
    simp only [rankStep, if_pos hgt]
  rw [hstep, foldl_rankStep_of_le _ rest _ _ hrest]

theorem buildTrigramProfile_nonneg (text : Text) (built : TrigramProfile ℝ)
    (hb : buildTrigramProfile text = some built) : ∀ e ∈ built, 0 ≤ e.2 := by
  obtain ⟨p, hp, hrep⟩ := buildTrigramProfile_represents text
    ((buildTrigramProfile_returns_iff text).mp ⟨built, hb⟩)
  have : p = built := Option.some.inj (hp.symm.trans hb)
  rw [← this]
  exact represents_entries_nonneg hrep

/-- C1 (amended): whenever `buildTrigramProfile` returns the profile of the
text, `identifyLanguage` returns `"---"` for the empty collection, and for a
non-empty collection of profiles with non-negative frequencies it returns the
code of the first language, in collection order, whose cosine similarity with
the normalised text profile is the maximum over the collection: every earlier
language scores strictly less. -/
theorem identifyLanguage_first_maximum (text : Text) (built : TrigramProfile ℝ)
    (hb : buildTrigramProfile text = some built)
    (first : LanguageProfile ℝ) (rest : LanguageProfiles ℝ)
    (hnonneg : ∀ l ∈ first :: rest, ∀ e ∈ l.trigramProfile, 0 ≤ e.2) :
    identifyLanguage Real.sqrt text [] = some "---"
    ∧ ∃ before winner after,
        first :: rest = before ++ winner :: after
        ∧ identifyLanguage Real.sqrt text (first :: rest) = some winner.languageCode
        ∧ (∀ l ∈ first :: rest,
            getCosineSimilarity (normalizeTrigramProfile Real.sqrt built) l.trigramProfile
              ≤ getCosineSimilarity (normalizeTrigramProfile Real.sqrt built)
                  winner.trigramProfile)
        ∧ (∀ l ∈ before,
            getCosineSimilarity (normalizeTrigramProfile Real.sqrt built) l.trigramProfile
              < getCosineSimilarity (normalizeTrigramProfile Real.sqrt built)
                  winner.trigramProfile) := by
  refine ⟨by simp [identifyLanguage, hb], ?_⟩
  have hT := normalizeTrigramProfile_nonneg built (buildTrigramProfile_nonneg text built hb)
  rcases foldl_rankStep (normalizeTrigramProfile Real.sqrt built) (first :: rest) (-1) "---"
    with ⟨_, hall⟩ | ⟨before, winner, after, hsplit, hfold, _, hbefore, hafter⟩
  · exfalso
    have h1 := hall first (List.mem_cons_self _ _)
    have h2 := getCosineSimilarity_nonneg_of_nonneg _ first.trigramProfile hT
      (hnonneg first (List.mem_cons_self _ _))
    linarith
  · refine ⟨before, winner, after, hsplit, ?_, ?_, hbefore⟩
    · simp only [identifyLanguage, hb, hfold]
    · intro l hl
      rw [hsplit] at hl
      rcases List.mem_append.mp hl with hl | hl
      · exact le_of_lt (hbefore l hl)
      · rcases List.mem_cons.mp hl with rfl | hl
        · exact le_refl _
        · exact hafter l hl

theorem identifyLanguage_first_maximum_witness :
    identifyLanguage Real.sqrt [[116, 104, 101, 32, 99, 97, 116]] [] = some "---"
    ∧ ∃ (before : LanguageProfiles ℝ) (winner : LanguageProfile ℝ)
        (after : LanguageProfiles ℝ),
        [⟨"es", [([113, 117, 101], 1)]⟩, ⟨"en", [([116, 104, 101], 1)]⟩]
            = before ++ winner :: after
        ∧ identifyLanguage Real.sqrt [[116, 104, 101, 32, 99, 97, 116]]
            [⟨"es", [([113, 117, 101], 1)]⟩, ⟨"en", [([116, 104, 101], 1)]⟩]
            = some winner.languageCode
        ∧ (∀ l ∈ ([⟨"es", [([113, 117, 101], 1)]⟩, ⟨"en", [([116, 104, 101], 1)]⟩] :
              LanguageProfiles ℝ),
            getCosineSimilarity (normalizeTrigramProfile Real.sqrt
                [([32, 99, 97], addOneFloat 0), ([99, 97, 116], addOneFloat 0),
                  ([101, 32, 99], addOneFloat 0), ([104, 101, 32], addOneFloat 0),
                  ([116, 104, 101], addOneFloat 0)]) l.trigramProfile
              ≤ getCosineSimilarity (normalizeTrigramProfile Real.sqrt
                [([32, 99, 97], addOneFloat 0), ([99, 97, 116], addOneFloat 0),
                  ([101, 32, 99], addOneFloat 0), ([104, 101, 32], addOneFloat 0),
                  ([116, 104, 101], addOneFloat 0)]) winner.trigramProfile)
        ∧ (∀ l ∈ before,
            getCosineSimilarity (normalizeTrigramProfile Real.sqrt
                [([32, 99, 97], addOneFloat 0), ([99, 97, 116], addOneFloat 0),
                  ([101, 32, 99], addOneFloat 0), ([104, 101, 32], addOneFloat 0),
                  ([116, 104, 101], addOneFloat 0)]) l.trigramProfile
              < getCosineSimilarity (normalizeTrigramProfile Real.sqrt
                [([32, 99, 97], addOneFloat 0), ([99, 97, 116], addOneFloat 0),
                  ([101, 32, 99], addOneFloat 0), ([104, 101, 32], addOneFloat 0),
                  ([116, 104, 101], addOneFloat 0)]) winner.trigramProfile) :=
  identifyLanguage_first_maximum [[116, 104, 101, 32, 99, 97, 116]]
    [([32, 99, 97], addOneFloat 0), ([99, 97, 116], addOneFloat 0),
      ([101, 32, 99], addOneFloat 0), ([104, 101, 32], addOneFloat 0),
      ([116, 104, 101], addOneFloat 0)] rfl
    ⟨"es", [([113, 117, 101], 1)]⟩ [⟨"en", [([116, 104, 101], 1)]⟩]
    (by
      intro l hl e he
      rcases List.mem_cons.mp hl with rfl | hl
      · have : e = ([113, 117, 101], 1) := by simpa using he
        subst this; norm_num
      · rcases List.mem_cons.mp hl with rfl | hl
        · have : e = ([116, 104, 101], 1) := by simpa using he
          subst this; norm_num
        · cases hl)

/-- C1 as stated fails: on the text made of the line of the byte `0x80`, a
stray continuation byte, building the text profile raises, and so does
`identifyLanguage`, also for the empty collection, where the claim has it
return `"---"`. -/
theorem identifyLanguage_empty_collection_raises :
    buildTrigramProfile [[0x80]] = (none : Option (TrigramProfile ℝ))
      ∧ identifyLanguage Real.sqrt [[0x80]] ([] : LanguageProfiles ℝ) = none
      ∧ identifyLanguage Real.sqrt [[0x80]] ([] : LanguageProfiles ℝ) ≠ some "---" :=
  ⟨rfl, rfl, fun h => Option.noConfusion h⟩

/-- C7 (amended): when the text's trigram profile shares no trigram with any
language profile of a non-empty collection, every score is `0`, which exceeds
the initial `-1`, and `identifyLanguage` returns the code of the first entry. -/
theorem identifyLanguage_disjoint_returns_first (text : Text) (built : TrigramProfile ℝ)
    (hb : buildTrigramProfile text = some built) (first : LanguageProfile ℝ)
    (rest : LanguageProfiles ℝ)
    (hdisj : ∀ l ∈ first :: rest, ∀ t ∈ profileKeys built, t ∉ profileKeys l.trigramProfile) :
    identifyLanguage Real.sqrt text (first :: rest) = some first.languageCode := by
  apply identifyLanguage_of_all_zero text built hb
  intro l hl
  apply getCosineSimilarity_of_disjoint
  rw [profileKeys_normalizeTrigramProfile]
  exact hdisj l hl

theorem identifyLanguage_disjoint_returns_first_witness :
    identifyLanguage Real.sqrt [[97, 98, 99]]
      [⟨"en", [([116, 104, 101], 1)]⟩, ⟨"es", [([113, 117, 101], 1)]⟩] = some "en" :=
  identifyLanguage_disjoint_returns_first [[97, 98, 99]] [([97, 98, 99], addOneFloat 0)] rfl
    ⟨"en", [([116, 104, 101], 1)]⟩ [⟨"es", [([113, 117, 101], 1)]⟩]
    (by
      intro l hl t ht
      have ht' : t = [97, 98, 99] := by simpa [profileKeys] using ht
      subst ht'
      rcases List.mem_cons.mp hl with rfl | hl
      · simp [profileKeys]
      · rcases List.mem_cons.mp hl with rfl | hl
        · simp [profileKeys]
        · cases hl)

/-- C7 as stated fails: the profile of the text `abc` shares no trigram with
the only language profile `xyz`, and the result is that language, not `"---"`. -/
theorem identifyLanguage_disjoint_not_sentinel :
    buildTrigramProfile [[97, 98, 99]] = some ([([97, 98, 99], addOneFloat 0)] : TrigramProfile ℝ)
    ∧ (∀ t ∈ profileKeys ([([97, 98, 99], addOneFloat 0)] : TrigramProfile ℝ),
        t ∉ profileKeys ([([120, 121, 122], 1)] : TrigramProfile ℝ))
    ∧ identifyLanguage Real.sqrt [[97, 98, 99]] [⟨"xx", [([120, 121, 122], 1)]⟩] = some "xx"
    ∧ identifyLanguage Real.sqrt [[97, 98, 99]] [⟨"xx", [([120, 121, 122], 1)]⟩]
        ≠ some "---" := by
  have hd : ∀ t ∈ profileKeys ([([97, 98, 99], addOneFloat 0)] : TrigramProfile ℝ),
      t ∉ profileKeys ([([120, 121, 122], 1)] : TrigramProfile ℝ) := by
    intro t ht
    have ht' : t = [97, 98, 99] := by simpa [profileKeys] using ht
    subst ht'
    simp [profileKeys]
  have hr : identifyLanguage Real.sqrt [[97, 98, 99]] [⟨"xx", [([120, 121, 122], 1)]⟩]
      = some "xx" := by
    apply identifyLanguage_of_all_zero [[97, 98, 99]] [([97, 98, 99], addOneFloat 0)] rfl
    intro l hl
    have hl' : l = ⟨"xx", [([120, 121, 122], 1)]⟩ := by simpa using hl
    subst hl'
    apply getCosineSimilarity_of_disjoint
    rw [profileKeys_normalizeTrigramProfile]
    exact hd
  refine ⟨rfl, hd, hr, ?_⟩
  rw [hr]
  decide

/-! ## Short lines -/

/-- C9 (amended): on every text whose lines, once one trailing carriage return
is removed, are each the UTF-8 encoding of code points of the Basic Multilingual
Plane (the empty text included), and for every language collection (the empty
one included), the decoding of each line and the re-encoding of each of its
3-unit windows succeed, `buildTrigramProfile` returns a profile and
`identifyLanguage` returns a language code. -/
theorem identifyLanguage_returns_of_bmp_text (text : Text) (lines : List (List Nat))
    (languages : LanguageProfiles ℝ) (h : EncodesLines text lines) :
    (∀ line ∈ text, ∃ w, from_bytes (stripCR line) = some w ∧
        ∀ i, i + 3 ≤ w.length → ∃ key, to_bytes (substr w i 3) = some key)
    ∧ ∃ (built : TrigramProfile ℝ) (code : String),
        buildTrigramProfile text = some built
          ∧ identifyLanguage Real.sqrt text languages = some code := by
  have hconv := convertible_of_encodesLines h
  constructor
  · intro line hl
    obtain ⟨w, hw, hwin⟩ := hconv line hl
    exact ⟨w, hw, fun i hi => Option.isSome_iff_exists.mp (hwin i hi)⟩
  · obtain ⟨built, hb, _⟩ := buildTrigramProfile_represents text hconv
    exact ⟨built,
      (languages.foldl (rankStep (normalizeTrigramProfile Real.sqrt built)) (-1, "---")).2,
      hb, by simp only [identifyLanguage, hb]⟩

theorem identifyLanguage_returns_of_bmp_text_witness :
    (∀ line ∈ ([[195, 177, 97, 110, 100, 195, 186, 13], []] : Text),
        ∃ w, from_bytes (stripCR line) = some w ∧
          ∀ i, i + 3 ≤ w.length → ∃ key, to_bytes (substr w i 3) = some key)
    ∧ ∃ (built : TrigramProfile ℝ) (code : String),
        buildTrigramProfile [[195, 177, 97, 110, 100, 195, 186, 13], []] = some built
          ∧ identifyLanguage Real.sqrt [[195, 177, 97, 110, 100, 195, 186, 13], []]
              [⟨"es", [([113, 117, 101], 1)]⟩] = some code :=
  identifyLanguage_returns_of_bmp_text [[195, 177, 97, 110, 100, 195, 186, 13], []]
    [[241, 97, 110, 100, 250], []] [⟨"es", [([113, 117, 101], 1)]⟩]
    (List.Forall₂.cons ⟨by decide, by decide⟩
      (List.Forall₂.cons ⟨by decide, by decide⟩ List.Forall₂.nil))

/-- C9 as stated fails: the one-byte line `0x80`, a stray continuation byte,
does not decode, so `buildTrigramProfile` and `identifyLanguage` raise, whatever
the language collection; and the line made of U+1F600 and the letters `ab`,
which is well-formed UTF-8, decodes to a surrogate pair and two letters, whose
second window starts with the low surrogate and does not re-encode, so both
functions raise on it too. -/
theorem identifyLanguage_raises_on_stray_continuation_byte :
    from_bytes [0x80] = none
      ∧ buildTrigramProfile [[0x80]] = (none : Option (TrigramProfile ℝ))
      ∧ (∀ languages : LanguageProfiles ℝ,
          identifyLanguage Real.sqrt [[0x80]] languages = none)
      ∧ [0xF0, 0x9F, 0x98, 0x80, 0x61, 0x62] = encodeUtf8 [0x1F600, 0x61, 0x62]
      ∧ from_bytes [0xF0, 0x9F, 0x98, 0x80, 0x61, 0x62] = some [0xD83D, 0xDE00, 0x61, 0x62]
      ∧ to_bytes (substr [0xD83D, 0xDE00, 0x61, 0x62] 1 3) = none
      ∧ buildTrigramProfile [[0xF0, 0x9F, 0x98, 0x80, 0x61, 0x62]]
          = (none : Option (TrigramProfile ℝ))
      ∧ (∀ languages : LanguageProfiles ℝ,
          identifyLanguage Real.sqrt [[0xF0, 0x9F, 0x98, 0x80, 0x61, 0x62]] languages = none) :=
  ⟨rfl, rfl, fun _ => rfl, by decide, by decide, by decide, rfl, fun _ => rfl⟩

/-! ## The line `ñandú` -/

/-- C14 (amended): the single line `ñandú` (precomposed, 5 code points, 7
bytes) yields 3 trigram occurrences, and every key of the profile is the UTF-8
encoding of exactly 3 code points. -/
theorem buildTrigramProfile_nandu :
    [0xC3, 0xB1, 0x61, 0x6E, 0x64, 0xC3, 0xBA] = encodeUtf8 [0xF1, 0x61, 0x6E, 0x64, 0xFA]
    ∧ ∃ p : TrigramProfile ℝ,
        buildTrigramProfile [[0xC3, 0xB1, 0x61, 0x6E, 0x64, 0xC3, 0xBA]] = some p
        ∧ frequencySum p = 3
        ∧ ∀ k ∈ profileKeys p, ∃ cps : List Nat,
            cps.length = 3 ∧ (∀ c ∈ cps, IsBmpScalar c) ∧ k = encodeUtf8 cps := by
  refine ⟨by decide, [([0x61, 0x6E, 0x64], addOneFloat 0),
    ([0x6E, 0x64, 0xC3, 0xBA], addOneFloat 0), ([0xC3, 0xB1, 0x61, 0x6E], addOneFloat 0)], rfl,
    by norm_num [frequencySum, addOneFloat], ?_⟩
  intro k hk
  simp only [profileKeys, List.map_cons, List.map_nil, List.mem_cons, List.mem_singleton,
    List.not_mem_nil, or_false] at hk
  rcases hk with rfl | rfl | rfl
  · exact ⟨[0x61, 0x6E, 0x64], rfl, by decide, by decide⟩
  · exact ⟨[0x6E, 0x64, 0xFA], rfl, by decide, by decide⟩
  · exact ⟨[0xF1, 0x61, 0x6E], rfl, by decide, by decide⟩

/-- C14 as stated fails: the frequencies of the line `ñandú` sum to 3 in its
precomposed form (5 code points) and to 5 in its decomposed form (7 code
points, the tilde and the accent being combining marks), never to 4. -/
theorem buildTrigramProfile_nandu_not_four :
    (∃ p : TrigramProfile ℝ,
        buildTrigramProfile [encodeUtf8 [0xF1, 0x61, 0x6E, 0x64, 0xFA]] = some p
        ∧ frequencySum p = 3 ∧ frequencySum p ≠ 4)
    ∧ (∃ p : TrigramProfile ℝ,
        buildTrigramProfile [encodeUtf8 [0x6E, 0x303, 0x61, 0x6E, 0x64, 0x75, 0x301]] = some p
        ∧ frequencySum p = 5 ∧ frequencySum p ≠ 4) := by
  refine ⟨⟨[([0x61, 0x6E, 0x64], addOneFloat 0), ([0x6E, 0x64, 0xC3, 0xBA], addOneFloat 0),
      ([0xC3, 0xB1, 0x61, 0x6E], addOneFloat 0)], rfl, ?_, ?_⟩,
    ⟨[([0x61, 0x6E, 0x64], addOneFloat 0), ([0x64, 0x75, 0xCC, 0x81], addOneFloat 0),
      ([0x6E, 0x64, 0x75], addOneFloat 0), ([0x6E, 0xCC, 0x83, 0x61], addOneFloat 0),
      ([0xCC, 0x83, 0x61, 0x6E], addOneFloat 0)], rfl, ?_, ?_⟩⟩ <;>
  norm_num [frequencySum, addOneFloat]

/-! ## Additivity over the lines -/

theorem windowCount_append (t : CppString) (t1 t2 : Text) :
    windowCount t (t1 ++ t2) = windowCount t t1 + windowCount t t2 := by
  simp [windowCount]

theorem windowCount_perm (t : CppString) {t1 t2 : Text} (h : t1.Perm t2) :
    windowCount t t1 = windowCount t t2 :=
  (h.map (lineWindowCount t)).sum_eq

theorem convertible_append (t1 t2 : Text) (h1 : Convertible t1) (h2 : Convertible t2) :
    Convertible (t1 ++ t2) := by
  intro line hl
  rcases List.mem_append.mp hl with hl | hl
  · exact h1 line hl
  · exact h2 line hl

theorem convertible_perm {t1 t2 : Text} (h : t1.Perm t2) (h1 : Convertible t1) :
    Convertible t2 :=
  fun line hl => h1 line (h.mem_iff.mpr hl)

/-- Two counters that stop at 2^24 add up, up to 2^24, to the counter of the
sum of their counts. -/
theorem cast_min_add (a b : Nat) :
    ((min (a + b) 16777216 : Nat) : ℝ)
      = min (((min a 16777216 : Nat) : ℝ) + ((min b 16777216 : Nat) : ℝ)) 16777216 := by
  have h : min (a + b) 16777216 = min (min a 16777216 + min b 16777216) 16777216 := by
    omega
  rw [h]
  push_cast
  rfl

/-- C20 (amended): when `buildTrigramProfile` returns a profile on `t1` and on
`t2`, it returns one on `t1` followed by `t2`, in which every frequency is the
sum of the frequencies in the profiles of `t1` and of `t2` (an absent key
counting as `0`) as long as that sum is at most 2^24 = 16777216, and 16777216
beyond; every reordering of the lines gives the same profile. -/
theorem buildTrigramProfile_append (t1 t2 : Text) (p1 p2 : TrigramProfile ℝ)
    (h1 : buildTrigramProfile t1 = some p1) (h2 : buildTrigramProfile t2 = some p2) :
    ∃ p : TrigramProfile ℝ,
      buildTrigramProfile (t1 ++ t2) = some p
      ∧ (∀ t, frequency p1 t + frequency p2 t ≤ 16777216 →
          frequency p t = frequency p1 t + frequency p2 t)
      ∧ (∀ t, 16777216 < frequency p1 t + frequency p2 t → frequency p t = 16777216)
      ∧ ∀ text : Text, (t1 ++ t2).Perm text → buildTrigramProfile text = some p := by
  have hc1 := (buildTrigramProfile_returns_iff t1).mp ⟨p1, h1⟩
  have hc2 := (buildTrigramProfile_returns_iff t2).mp ⟨p2, h2⟩
  obtain ⟨q1, hq1, hr1⟩ := buildTrigramProfile_represents t1 hc1
  obtain ⟨q2, hq2, hr2⟩ := buildTrigramProfile_represents t2 hc2
  have e1 : q1 = p1 := Option.some.inj (hq1.symm.trans h1)
  have e2 : q2 = p2 := Option.some.inj (hq2.symm.trans h2)
  subst e1 e2
  have h12 := convertible_append t1 t2 hc1 hc2
  obtain ⟨p, hp, hr⟩ := buildTrigramProfile_represents (t1 ++ t2) h12
  have hsum : ∀ t, frequency p t = min (frequency q1 t + frequency q2 t) 16777216 := by
    intro t
    rw [(hr.2 t).1, (hr1.2 t).1, (hr2.2 t).1]
    show ((min (windowCount t (t1 ++ t2)) 16777216 : Nat) : ℝ) = _
    rw [windowCount_append]
    exact cast_min_add _ _
  refine ⟨p, hp, ?_, ?_, ?_⟩
  · intro t hle
    rw [hsum t, min_eq_left hle]
  · intro t hlt
    rw [hsum t, min_eq_right (le_of_lt hlt)]
  · intro text hperm
    obtain ⟨p', hp', hr'⟩ := buildTrigramProfile_represents text (convertible_perm hperm h12)
    have hr'' : Represents p' (fun t => windowCount t (t1 ++ t2)) :=
      represents_congr (fun t => (windowCount_perm t hperm).symm) hr'
    rw [hp', represents_unique hr'' hr]

theorem buildTrigramProfile_append_witness :
    ∃ p : TrigramProfile ℝ,
      buildTrigramProfile ([[97, 98, 99, 100]] ++ [[98, 99, 100, 13], [97]]) = some p
      ∧ (∀ t, frequency ([([97, 98, 99], addOneFloat 0), ([98, 99, 100], addOneFloat 0)] :
              TrigramProfile ℝ) t
            + frequency ([([98, 99, 100], addOneFloat 0)] : TrigramProfile ℝ) t ≤ 16777216 →
          frequency p t
            = frequency ([([97, 98, 99], addOneFloat 0), ([98, 99, 100], addOneFloat 0)] :
                TrigramProfile ℝ) t
              + frequency ([([98, 99, 100], addOneFloat 0)] : TrigramProfile ℝ) t)
      ∧ (∀ t, 16777216
            < frequency ([([97, 98, 99], addOneFloat 0), ([98, 99, 100], addOneFloat 0)] :
                TrigramProfile ℝ) t
              + frequency ([([98, 99, 100], addOneFloat 0)] : TrigramProfile ℝ) t →
          frequency p t = 16777216)
      ∧ ∀ text : Text, (([[97, 98, 99, 100]] : Text) ++ [[98, 99, 100, 13], [97]]).Perm text →
          buildTrigramProfile text = some p :=
  buildTrigramProfile_append [[97, 98, 99, 100]] [[98, 99, 100, 13], [97]]
    [([97, 98, 99], addOneFloat 0), ([98, 99, 100], addOneFloat 0)]
    [([98, 99, 100], addOneFloat 0)] rfl rfl

/-- C20 as stated fails: the line of 16777218 letters `a` gives the trigram
`aaa` the frequency 16777216 and the line `aaa` gives it the frequency 1, while
in the profile of the two lines together its frequency is 16777216, where the
`float` counter stays, not the sum 16777217; and on a text with the line of
the byte `0x80` no profile is returned, so there is no frequency to add. -/
theorem buildTrigramProfile_append_not_additive :
    (∃ p1 p2 p : TrigramProfile ℝ,
      buildTrigramProfile [List.replicate 16777218 (97 : Byte)] = some p1
      ∧ buildTrigramProfile [[97, 97, 97]] = some p2
      ∧ buildTrigramProfile ([List.replicate 16777218 (97 : Byte)] ++ [[97, 97, 97]]) = some p
      ∧ frequency p1 [97, 97, 97] = 16777216
      ∧ frequency p2 [97, 97, 97] = 1
      ∧ frequency p [97, 97, 97] = 16777216
      ∧ frequency p [97, 97, 97] ≠ frequency p1 [97, 97, 97] + frequency p2 [97, 97, 97])
    ∧ buildTrigramProfile [[0x80]] = (none : Option (TrigramProfile ℝ))
    ∧ buildTrigramProfile ([[0x80]] ++ [[97, 97, 97]]) = (none : Option (TrigramProfile ℝ)) := by
  have e3 : List.replicate 3 (97 : Byte) = [97, 97, 97] := rfl
  have hb1 := buildTrigramProfile_lines_of_a [16777218] (by norm_num)
  have hb2 := buildTrigramProfile_lines_of_a [3] (by norm_num)
  have hb := buildTrigramProfile_lines_of_a [16777218, 3] (by norm_num)
  simp only [List.map_cons, List.map_nil, List.sum_cons, List.sum_nil] at hb1 hb2 hb
  rw [e3] at hb2 hb
  refine ⟨⟨_, _, _, hb1, hb2, hb, ?_, ?_, ?_, ?_⟩, rfl, rfl⟩ <;>
  norm_num [frequency]

/-! ## `getTextFromString` -/

theorem getTextScan_ne_nil (s cur : CppString) : getTextScan s cur ≠ [] := by
  induction s generalizing cur with
  | nil => simp [getTextScan]
  | cons c rest ih =>
    unfold getTextScan
    split
    · simp
    · exact ih _

theorem getTextScan_length (s cur : CppString) :
    (getTextScan s cur).length = s.count 0x0A + 1 := by
  induction s generalizing cur with
  | nil => simp [getTextScan]
  | cons c rest ih =>
    unfold getTextScan
    by_cases h : c = 0x0A
    · subst h
      simp [ih]
    · rw [if_neg h, ih, List.count_cons_of_ne (fun e => h e.symm)]

theorem not_mem_dropLast_of_not_mem {cur : CppString} {x : Byte} (h : x ∉ cur) :
    x ∉ cur.dropLast :=
  fun hm => h (List.mem_of_mem_dropLast hm)

theorem getTextScan_no_line_feed (s cur : CppString) (hcur : (0x0A : Byte) ∉ cur) :
    ∀ line ∈ getTextScan s cur, (0x0A : Byte) ∉ line := by
  induction s generalizing cur with
  | nil =>
    intro line hl
    have : line = cur := by simpa [getTextScan] using hl
    rw [this]; exact hcur
  | cons c rest ih =>
    intro line hl
    unfold getTextScan at hl
    by_cases h : c = 0x0A
    · rw [if_pos h] at hl
      rcases List.mem_cons.mp hl with rfl | hl
      · split
        · exact not_mem_dropLast_of_not_mem hcur
        · exact hcur
      · exact ih [] (List.not_mem_nil _) line hl
    · rw [if_neg h] at hl
      refine ih (cur ++ [c]) ?_ line hl
      intro hm
      rcases List.mem_append.mp hm with hm | hm
      · exact hcur hm
      · exact h (List.mem_singleton.mp hm).symm

theorem replaceCRLF_of_no_line_feed (cur : CppString) (hcur : (0x0A : Byte) ∉ cur) :
    replaceCRLF cur = cur := by
  induction cur with
  | nil => rfl
  | cons c rest ih =>
    have hrest : (0x0A : Byte) ∉ rest := fun hm => hcur (List.mem_cons_of_mem _ hm)
    have hhead : ¬ (c = 0x0D ∧ rest.head? = some 0x0A) := by
      rintro ⟨_, hh⟩
      exact hrest (List.mem_of_mem_head? hh)
    rw [replaceCRLF, if_neg hhead, ih hrest]

/-- Replacing the pairs in a line without line feed that is followed by a line
feed drops the carriage return that ends the line, if there is one. -/
theorem replaceCRLF_append_line_feed (cur rest : CppString) (hcur : (0x0A : Byte) ∉ cur) :
    replaceCRLF (cur ++ 0x0A :: rest)
      = (if cur ≠ [] ∧ cur.getLast? = some 0x0D then cur.dropLast else cur)
          ++ 0x0A :: replaceCRLF rest := by
  induction cur with
  | nil =>
    have h : ¬ ((0x0A : Byte) = 0x0D ∧ rest.head? = some 0x0A) := by
      rintro ⟨h, _⟩; exact absurd h (by decide)
    simp only [List.nil_append, replaceCRLF, if_neg h]
    simp
  | cons c cs ih =>
    have hcs : (0x0A : Byte) ∉ cs := fun hm => hcur (List.mem_cons_of_mem _ hm)
    have hc : c ≠ 0x0A := fun e => hcur (by rw [e]; exact List.mem_cons_self _ _)
    cases cs with
    | nil =>
      by_cases hcr : c = 0x0D
      · subst hcr
        have h1 : ((0x0D : Byte) = 0x0D ∧ (0x0A :: rest).head? = some 0x0A) := ⟨rfl, rfl⟩
        have h2 : ¬ ((0x0A : Byte) = 0x0D ∧ rest.head? = some 0x0A) := by
          rintro ⟨h, _⟩; exact absurd h (by decide)
        simp only [List.cons_append, List.nil_append]
        rw [replaceCRLF, if_pos h1, replaceCRLF, if_neg h2]
        simp
      · have h1 : ¬ (c = 0x0D ∧ (0x0A :: rest).head? = some 0x0A) := fun h => hcr h.1
        have h2 : ¬ ((0x0A : Byte) = 0x0D ∧ rest.head? = some 0x0A) := by
          rintro ⟨h, _⟩; exact absurd h (by decide)
        simp only [List.cons_append, List.nil_append]
        rw [replaceCRLF, if_neg h1, replaceCRLF, if_neg h2]
        simp [hcr]
    | cons c' cs' =>
      have hc' : c' ≠ 0x0A := fun e => hcs (by rw [e]; exact List.mem_cons_self _ _)
      have h1 : ¬ (c = 0x0D ∧ ((c' :: cs') ++ 0x0A :: rest).head? = some 0x0A) := by
        rintro ⟨_, hh⟩
        simp at hh
        exact hc' hh
      have ih' := ih hcs
      simp only [List.cons_append] at ih' h1 ⊢
      rw [replaceCRLF, if_neg h1, ih']
      simp only [ne_eq, reduceCtorEq, not_false_eq_true, true_and, List.getLast?_cons_cons,
        List.dropLast_cons₂]
      split <;> rfl

theorem joinLines_cons_of_ne_nil (line : CppString) (lines : Text) (h : lines ≠ []) :
    joinLines (line :: lines) = line ++ 0x0A :: joinLines lines := by
  cases lines with
  | nil => exact absurd rfl h
  | cons next rest => rfl

theorem joinLines_getTextScan (s cur : CppString) (hcur : (0x0A : Byte) ∉ cur) :
    joinLines (getTextScan s cur) = replaceCRLF (cur ++ s) := by
  induction s generalizing cur with
  | nil =>
    simp only [getTextScan, joinLines, List.append_nil]
    exact (replaceCRLF_of_no_line_feed cur hcur).symm
  | cons c rest ih =>
    unfold getTextScan
    by_cases h : c = 0x0A
    · subst h
      rw [if_pos rfl, joinLines_cons_of_ne_nil _ _ (getTextScan_ne_nil rest []),
        ih [] (List.not_mem_nil _), replaceCRLF_append_line_feed cur rest hcur]
      rfl
    · rw [if_neg h, ih (cur ++ [c])]
      · simp
      · intro hm
        rcases List.mem_append.mp hm with hm | hm
        · exact hcur hm
        · exact h (List.mem_singleton.mp hm).symm

/-- C18: `getTextFromString` produces exactly (number of line feeds) + 1
lines, none of which contains a line feed, and the lines joined with single
line feeds are the string with every pair carriage return, line feed replaced
by a line feed (a carriage return not followed by a line feed is kept). -/
theorem getTextFromString_spec (s : CppString) :
    (getTextFromString s).length = s.count 0x0A + 1
      ∧ (∀ line ∈ getTextFromString s, (0x0A : Byte) ∉ line)
      ∧ joinLines (getTextFromString s) = replaceCRLF s :=
  ⟨getTextScan_length s [], getTextScan_no_line_feed s [] (List.not_mem_nil _),
    by rw [getTextFromString, joinLines_getTextScan s [] (List.not_mem_nil _)]; rfl⟩

/-! ## `readCSV`: records and line endings -/

/-- What the end of a record adds to the table: nothing, or one record that
has at least one field. -/
theorem endRecord_spec (field : CppString) (fields : List CppString) (data : CSVData) :
    endRecord field fields data = data
      ∨ ∃ record, record ≠ [] ∧ endRecord field fields data = data ++ [record] := by
  unfold endRecord
  by_cases h : (if field ≠ [] then fields ++ [field] else fields) ≠ []
  · exact Or.inr ⟨_, h, by simp only [if_pos h]⟩
  · exact Or.inl (by simp only [if_neg h])

theorem endRecord_nil (data : CSVData) : endRecord [] [] data = data := by
  simp [endRecord]

theorem readStep_data (st : CSVState) (c : Byte) :
    (readStep st c).data = st.data
      ∨ ∃ record, record ≠ [] ∧ (readStep st c).data = st.data ++ [record] := by
  unfold readStep
  simp only
  split_ifs <;> first
    | exact Or.inl rfl
    | exact endRecord_spec _ _ _

theorem foldl_readStep_data (s : CppString) (st : CSVState) :
    ∃ added : CSVData, (s.foldl readStep st).data = st.data ++ added
      ∧ ∀ record ∈ added, record ≠ [] := by
  induction s generalizing st with
  | nil => exact ⟨[], by simp, fun r hr => absurd hr (List.not_mem_nil r)⟩
  | cons c rest ih =>
    obtain ⟨added, hadd, hne⟩ := ih (readStep st c)
    rw [List.foldl_cons, hadd]
    rcases readStep_data st c with h | ⟨record, hrec, h⟩
    · exact ⟨added, by rw [h], hne⟩
    · refine ⟨record :: added, by rw [h]; simp, ?_⟩
      intro r hr
      rcases List.mem_cons.mp hr with rfl | hr
      · exact hrec
      · exact hne r hr

theorem parseCSV_added (s : CppString) (data : CSVData) :
    ∃ added : CSVData, parseCSV s data = data ++ added ∧ ∀ record ∈ added, record ≠ [] := by
  obtain ⟨added, hadd, hne⟩ := foldl_readStep_data s
    { inQuotes := false, lastQuote := false, field := [], fields := [], data := data }
  unfold parseCSV
  simp only
  rcases endRecord_spec
    (s.foldl readStep ⟨false, false, [], [], data⟩).field
    (s.foldl readStep ⟨false, false, [], [], data⟩).fields
    (s.foldl readStep ⟨false, false, [], [], data⟩).data with h | ⟨record, hrec, h⟩
  · exact ⟨added, by rw [h, hadd], hne⟩
  · refine ⟨added ++ [record], by rw [h, hadd]; simp, ?_⟩
    intro r hr
    rcases List.mem_append.mp hr with hr | hr
    · exact hne r hr
    · rw [List.mem_singleton.mp hr]; exact hrec

theorem readStep_line_break (st : CSVState) (c : Byte) (hc : c = 0x0A ∨ c = 0x0D) :
    readStep st c = { inQuotes := false, lastQuote := false, field := [], fields := [],
                      data := endRecord st.field st.fields st.data } := by
  have h1 : c ≠ 0x22 := by rcases hc with rfl | rfl <;> decide
  have h2 : c ≠ 0x2C := by rcases hc with rfl | rfl <;> decide
  unfold readStep
  simp only [if_neg h1, if_neg h2, if_pos hc]

theorem foldl_readStep_line_breaks (s : CppString) (hs : ∀ c ∈ s, c = 0x0A ∨ c = 0x0D)
    (data : CSVData) :
    s.foldl readStep ⟨false, false, [], [], data⟩ = ⟨false, false, [], [], data⟩ := by
  induction s with
  | nil => rfl
  | cons c rest ih =>
    rw [List.foldl_cons, readStep_line_break _ c (hs c (List.mem_cons_self _ _))]
    simp only [endRecord_nil]
    exact ih (fun x hx => hs x (List.mem_cons_of_mem _ hx))

/-- C17: every record that the parser of `readCSV` appends to the table has at
least one field; an input made only of line breaks appends no record. -/
theorem parseCSV_records_nonempty (s : CppString) (data : CSVData) :
    (∃ added : CSVData, parseCSV s data = data ++ added
        ∧ ∀ record ∈ added, 1 ≤ record.length)
      ∧ ((∀ c ∈ s, c = 0x0A ∨ c = 0x0D) → parseCSV s data = data) := by
  constructor
  · obtain ⟨added, hadd, hne⟩ := parseCSV_added s data
    exact ⟨added, hadd, fun r hr => List.length_pos.mpr (hne r hr)⟩
  · intro hs
    unfold parseCSV
    simp only [foldl_readStep_line_breaks s hs data, endRecord_nil]

/-- A carriage return followed by a line feed leaves the parser in the state
in which the line feed alone leaves it. -/
theorem readStep_CR_LF (st : CSVState) :
    readStep (readStep st 0x0D) 0x0A = readStep st 0x0A := by
  rw [readStep_line_break st 0x0D (Or.inr rfl), readStep_line_break st 0x0A (Or.inl rfl),
    readStep_line_break _ 0x0A (Or.inl rfl)]
  simp only [endRecord_nil]

theorem foldl_readStep_replaceCRLF (s : CppString) (st : CSVState) :
    (replaceCRLF s).foldl readStep st = s.foldl readStep st := by
  induction s generalizing st with
  | nil => rfl
  | cons c rest ih =>
    rw [replaceCRLF]
    by_cases h : c = 0x0D ∧ rest.head? = some 0x0A
    · rw [if_pos h, ih]
      obtain ⟨hc, hrest⟩ := h
      subst hc
      cases rest with
      | nil => simp at hrest
      | cons c' rest' =>
        have : c' = 0x0A := by simpa using hrest
        subst this
        simp only [List.foldl_cons, readStep_CR_LF]
    · rw [if_neg h, List.foldl_cons, List.foldl_cons, ih]

theorem parseCSV_append_line_feed (s : CppString) (data : CSVData) :
    parseCSV (s ++ [0x0A]) data = parseCSV s data := by
  unfold parseCSV
  simp only [List.foldl_append, List.foldl_cons, List.foldl_nil]
  rw [readStep_line_break _ 0x0A (Or.inl rfl)]
  simp only [endRecord_nil]

/-- C16: the parser of `readCSV` does not depend on the line-ending convention:
the parsed table is unchanged when a final line feed is appended to the input,
and when every pair carriage return, line feed is replaced by a line feed. -/
theorem parseCSV_line_ending_independent (s : CppString) (data : CSVData) :
    parseCSV (s ++ [0x0A]) data = parseCSV s data
      ∧ parseCSV (replaceCRLF s) data = parseCSV s data :=
  ⟨parseCSV_append_line_feed s data, by
    unfold parseCSV
    simp only [foldl_readStep_replaceCRLF]⟩

/-! ## Reading back what `writeCSV` wrote -/

theorem readStep_quote_open (inQ : Bool) (field : CppString) (fields : List CppString)
    (data : CSVData) :
    readStep ⟨inQ, false, field, fields, data⟩ 0x22 = ⟨inQ, true, field, fields, data⟩ := by
  simp [readStep]

theorem readStep_quote_pair (inQ : Bool) (field : CppString) (fields : List CppString)
    (data : CSVData) :
    readStep ⟨inQ, true, field, fields, data⟩ 0x22
      = ⟨inQ, false, field ++ [0x22], fields, data⟩ := by
  simp [readStep]

theorem readStep_inside (c : Byte) (hq : c ≠ 0x22) (hlf : c ≠ 0x0A) (hcr : c ≠ 0x0D)
    (field : CppString) (fields : List CppString) (data : CSVData) :
    readStep ⟨true, false, field, fields, data⟩ c
      = ⟨true, false, field ++ [c], fields, data⟩ := by
  by_cases hc : c = 0x2C
  · subst hc; simp [readStep]
  · simp [readStep, hq, hc, hlf, hcr]

theorem readStep_after_open (c : Byte) (hq : c ≠ 0x22) (hlf : c ≠ 0x0A) (hcr : c ≠ 0x0D)
    (field : CppString) (fields : List CppString) (data : CSVData) :
    readStep ⟨false, true, field, fields, data⟩ c
      = ⟨true, false, field ++ [c], fields, data⟩ := by
  by_cases hc : c = 0x2C
  · subst hc; simp [readStep]
  · simp [readStep, hq, hc, hlf, hcr]

/-- Inside the quotes: the doubled field and the closing quote are read back
as the field. -/
theorem foldl_readStep_inside (rest : CppString)
    (hrest : (0x0A : Byte) ∉ rest ∧ (0x0D : Byte) ∉ rest)
    (pre : CppString) (fields : List CppString) (data : CSVData) :
    (doubleQuotes rest ++ [0x22]).foldl readStep ⟨true, false, pre, fields, data⟩
      = ⟨true, true, pre ++ rest, fields, data⟩ := by
  induction rest generalizing pre with
  | nil => simp [doubleQuotes, readStep_quote_open]
  | cons c cs ih =>
    have hcs : (0x0A : Byte) ∉ cs ∧ (0x0D : Byte) ∉ cs :=
      ⟨fun h => hrest.1 (List.mem_cons_of_mem _ h), fun h => hrest.2 (List.mem_cons_of_mem _ h)⟩
    have hlf : c ≠ 0x0A := fun e => hrest.1 (by rw [e]; exact List.mem_cons_self _ _)
    have hcr : c ≠ 0x0D := fun e => hrest.2 (by rw [e]; exact List.mem_cons_self _ _)
    unfold doubleQuotes
    by_cases hq : c = 0x22
    · subst hq
      rw [if_pos rfl]
      simp only [List.cons_append, List.foldl_cons, readStep_quote_open, readStep_quote_pair]
      rw [ih hcs]
      simp
    · rw [if_neg hq]
      simp only [List.cons_append, List.foldl_cons, readStep_inside c hq hlf hcr]
      rw [ih hcs]
      simp

/-- After the opening quote, while only double quotes were read: the doubled
field and the closing quote are read back as the field, with one more double
quote when the field has nothing but double quotes. -/
theorem foldl_readStep_after_open (rest : CppString)
    (hrest : (0x0A : Byte) ∉ rest ∧ (0x0D : Byte) ∉ rest)
    (pre : CppString) (fields : List CppString) (data : CSVData) :
    (doubleQuotes rest ++ [0x22]).foldl readStep ⟨false, true, pre, fields, data⟩
      = if rest.all (fun c => decide (c = 0x22)) = true
        then ⟨false, false, pre ++ rest ++ [0x22], fields, data⟩
        else ⟨true, true, pre ++ rest, fields, data⟩ := by
  induction rest generalizing pre with
  | nil => simp [doubleQuotes, readStep_quote_pair]
  | cons c cs ih =>
    have hcs : (0x0A : Byte) ∉ cs ∧ (0x0D : Byte) ∉ cs :=
      ⟨fun h => hrest.1 (List.mem_cons_of_mem _ h), fun h => hrest.2 (List.mem_cons_of_mem _ h)⟩
    have hlf : c ≠ 0x0A := fun e => hrest.1 (by rw [e]; exact List.mem_cons_self _ _)
    have hcr : c ≠ 0x0D := fun e => hrest.2 (by rw [e]; exact List.mem_cons_self _ _)
    unfold doubleQuotes
    by_cases hq : c = 0x22
    · subst hq
      rw [if_pos rfl]
      simp only [List.cons_append, List.foldl_cons, readStep_quote_open, readStep_quote_pair]
      rw [ih hcs]
      simp
    · rw [if_neg hq]
      simp only [List.cons_append, List.foldl_cons, readStep_after_open c hq hlf hcr]
      rw [foldl_readStep_inside cs hcs]
      simp [hq]

theorem readBack_ne_nil (f : CppString) : readBack f ≠ [] := by
  unfold readBack
  split
  · simp
  · rename_i h
    intro hf
    apply h
    rw [hf]
    rfl

/-- A written field, read from the start of a field, is read back as
`readBack`. -/
theorem foldl_readStep_written_field (f : CppString)
    (hf : (0x0A : Byte) ∉ f ∧ (0x0D : Byte) ∉ f) (fields : List CppString) (data : CSVData) :
    FieldRead (([0x22] ++ doubleQuotes f ++ [0x22]).foldl readStep
      ⟨false, false, [], fields, data⟩) (readBack f) fields data := by
  refine ⟨readBack_ne_nil f, ?_⟩
  have e : [0x22] ++ doubleQuotes f ++ [0x22] = (0x22 : Byte) :: (doubleQuotes f ++ [0x22]) :=
    rfl
  rw [e, List.foldl_cons, readStep_quote_open, foldl_readStep_after_open f hf]
  unfold readBack
  split
  · left; simp
  · right; simp

theorem readStep_comma_of_fieldRead {st : CSVState} {g : CppString}
    {fields : List CppString} {data : CSVData} (h : FieldRead st g fields data) :
    readStep st 0x2C = ⟨false, false, [], fields ++ [g], data⟩ := by
  rcases h.2 with h | h <;> subst h <;> simp [readStep]

theorem readStep_line_feed_of_fieldRead {st : CSVState} {g : CppString}
    {fields : List CppString} {data : CSVData} (h : FieldRead st g fields data) :
    readStep st 0x0A = ⟨false, false, [], [], data ++ [fields ++ [g]]⟩ := by
  have hg := h.1
  rcases h.2 with h | h <;> subst h <;> simp [readStep, endRecord, hg]

theorem foldl_readStep_append_cons (line q : CppString) (c : Byte) (st0 : CSVState) :
    (line ++ [c] ++ q).foldl readStep st0
      = q.foldl readStep (readStep (line.foldl readStep st0) c) := by
  simp [List.foldl_append]

/-- The rest of a written record, from a state in which a field was read. -/
theorem foldl_readStep_written_fields (rest : List CppString)
    (hrest : ∀ f ∈ rest, (0x0A : Byte) ∉ f ∧ (0x0D : Byte) ∉ f)
    (st0 : CSVState) (line g : CppString) (fields : List CppString) (data : CSVData)
    (h : FieldRead (line.foldl readStep st0) g fields data) :
    ((rest.foldl writeField (line, false)).1 ++ [0x0A]).foldl readStep st0
      = ⟨false, false, [], [], data ++ [fields ++ [g] ++ rest.map readBack]⟩ := by
  induction rest generalizing line g fields with
  | nil =>
    simp only [List.foldl_nil, List.foldl_append, List.foldl_cons, List.map_nil,
      List.append_nil]
    exact readStep_line_feed_of_fieldRead h
  | cons f fs ih =>
    have hf := hrest f (List.mem_cons_self _ _)
    have hfs : ∀ x ∈ fs, (0x0A : Byte) ∉ x ∧ (0x0D : Byte) ∉ x :=
      fun x hx => hrest x (List.mem_cons_of_mem _ hx)
    have hstep : writeField (line, false) f
        = (line ++ [0x2C] ++ ([0x22] ++ doubleQuotes f ++ [0x22]), false) := by
      simp [writeField]
    rw [List.foldl_cons, hstep]
    have hnext : FieldRead
        ((line ++ [0x2C] ++ ([0x22] ++ doubleQuotes f ++ [0x22])).foldl readStep st0)
        (readBack f) (fields ++ [g]) data := by
      rw [foldl_readStep_append_cons, readStep_comma_of_fieldRead h]
      exact foldl_readStep_written_field f hf (fields ++ [g]) data
    rw [ih hfs _ _ _ hnext]
    simp

/-- A written record, read from the start of a line, adds the record of the
fields read back. -/
theorem foldl_readStep_writeRecord (record : List CppString) (hne : record ≠ [])
    (hrec : ∀ f ∈ record, (0x0A : Byte) ∉ f ∧ (0x0D : Byte) ∉ f) (data : CSVData) :
    (writeRecord record).foldl readStep ⟨false, false, [], [], data⟩
      = ⟨false, false, [], [], data ++ [record.map readBack]⟩ := by
  obtain ⟨f, rest, rfl⟩ := List.exists_cons_of_ne_nil hne
  have hf := hrec f (List.mem_cons_self _ _)
  have hstep : writeField ([], true) f = ([0x22] ++ doubleQuotes f ++ [0x22], false) := by
    simp [writeField]
  unfold writeRecord
  rw [List.foldl_cons, hstep,
    foldl_readStep_written_fields rest (fun x hx => hrec x (List.mem_cons_of_mem _ hx))
      ⟨false, false, [], [], data⟩ _ (readBack f) [] data
      (foldl_readStep_written_field f hf [] data)]
  simp

theorem foldl_writeRecord_eq (table : CSVData) (file : CppString) :
    table.foldl (fun file fields => file ++ writeRecord fields) file
      = file ++ writeCSV table := by
  unfold writeCSV
  induction table generalizing file with
  | nil => simp
  | cons r rest ih =>
    rw [List.foldl_cons, List.foldl_cons, ih, ih ([] ++ writeRecord r)]
    simp

theorem foldl_readStep_writeCSV (table : CSVData)
    (htable : ∀ record ∈ table, record ≠ []
      ∧ ∀ f ∈ record, (0x0A : Byte) ∉ f ∧ (0x0D : Byte) ∉ f) (data : CSVData) :
    (writeCSV table).foldl readStep ⟨false, false, [], [], data⟩
      = ⟨false, false, [], [], data ++ table.map (fun record => record.map readBack)⟩ := by
  induction table generalizing data with
  | nil => simp [writeCSV]
  | cons r rest ih =>
    have hr := htable r (List.mem_cons_self _ _)
    have hw : writeCSV (r :: rest) = writeRecord r ++ writeCSV rest := by
      unfold writeCSV
      rw [List.foldl_cons, foldl_writeRecord_eq]
      rfl
    rw [hw, List.foldl_append, foldl_readStep_writeRecord r hr.1 hr.2,
      ih (fun x hx => htable x (List.mem_cons_of_mem _ hx))]
    simp

/-- What the parser of `readCSV` reads back from the text of `writeCSV`: the
table in which every field is read back as `readBack`. -/
theorem parseCSV_writeCSV (table : CSVData)
    (htable : ∀ record ∈ table, record ≠ []
      ∧ ∀ f ∈ record, (0x0A : Byte) ∉ f ∧ (0x0D : Byte) ∉ f) (data : CSVData) :
    parseCSV (writeCSV table) data
      = data ++ table.map (fun record => record.map readBack) := by
  unfold parseCSV
  simp only [foldl_readStep_writeCSV table htable data, endRecord_nil]

theorem readBack_of_not_all_quotes (f : CppString) (h : ∃ c ∈ f, c ≠ 0x22) :
    readBack f = f := by
  unfold readBack
  split
  · rename_i hall
    obtain ⟨c, hc, hne⟩ := h
    have := List.all_eq_true.mp hall c hc
    exact absurd (of_decide_eq_true this) hne
  · rfl

/-- C19: for a table in which every record has at least one field and every
field has no carriage return, no line feed and at least one character other
than the double quote, parsing the text that `writeCSV` produces, starting from
an empty table, returns exactly the table that was written. -/
theorem parseCSV_writeCSV_roundtrip (table : CSVData)
    (hrecords : ∀ record ∈ table, record ≠ [])
    (hfields : ∀ record ∈ table, ∀ f ∈ record,
      (0x0A : Byte) ∉ f ∧ (0x0D : Byte) ∉ f ∧ ∃ c ∈ f, c ≠ 0x22) :
    parseCSV (writeCSV table) [] = table
      ∧ readCSV (some (writeCSV table)) [] = (true, table) := by
  have h : parseCSV (writeCSV table) [] = table := by
    rw [parseCSV_writeCSV table
      (fun r hr => ⟨hrecords r hr, fun f hf => ⟨(hfields r hr f hf).1, (hfields r hr f hf).2.1⟩⟩)]
    rw [List.nil_append]
    conv_rhs => rw [← List.map_id table]
    apply List.map_congr_left
    intro r hr
    conv_rhs => rw [id, ← List.map_id r]
    apply List.map_congr_left
    intro f hf
    exact readBack_of_not_all_quotes f (hfields r hr f hf).2.2
  exact ⟨h, by simp only [readCSV, h]⟩

theorem parseCSV_writeCSV_roundtrip_witness :
    parseCSV (writeCSV [[[97], [98, 44, 99]], [[120, 34, 121], [34, 34, 122]]]) []
        = [[[97], [98, 44, 99]], [[120, 34, 121], [34, 34, 122]]]
      ∧ readCSV (some (writeCSV [[[97], [98, 44, 99]], [[120, 34, 121], [34, 34, 122]]])) []
        = (true, [[[97], [98, 44, 99]], [[120, 34, 121], [34, 34, 122]]]) :=
  parseCSV_writeCSV_roundtrip [[[97], [98, 44, 99]], [[120, 34, 121], [34, 34, 122]]]
    (by decide) (by decide)

/-- C15 fails on the table of one record with one empty field: `writeCSV`
writes the line of two double quotes, which the parser of `readCSV` reads as
one doubled quote, a field holding a double quote. -/
theorem parseCSV_writeCSV_empty_field :
    writeCSV [[[]]] = [0x22, 0x22, 0x0A]
      ∧ parseCSV (writeCSV [[[]]]) [] = [[[0x22]]]
      ∧ parseCSV (writeCSV [[[]]]) [] ≠ [[[]]] := by
  decide

end Lequel
